import Mathlib

/-!
Verification of `src/core/term_iterator.rs` (tantivy term-merge iterator).

The Rust code merges N sorted, duplicate-free streams of byte terms into one
sorted, deduplicated stream, annotating each yielded term with the ordinals of
the streams that contain it.  We embed the code shallowly:

* a `Term` is its byte sequence, modelled as `List Nat`, compared byte-wise
  (this is `Ord` on Rust slices of `u8`);
* `fst::map::Keys` (a sorted key stream) is modelled by the list of terms it
  has not yet produced; `next()` pops the head;
* `std::collections::BinaryHeap<HeapItem>` is a max-priority queue under
  `HeapItem::cmp`, which reverses the (term, segment_ord) pair order, so the
  element extracted first is the one with the least (term, segment_ord) pair.
  We model it by a list kept sorted in ascending (term, segment_ord) order:
  `heapPush` inserts in order, `heapPop`/`heapPeek` take the front — exactly
  the element `BinaryHeap::pop`/`peek` would return.
-/

namespace TermIter

/-- A term is an immutable byte sequence (`schema::Term`, viewed through its
byte-wise `Ord` as the merge does). -/
abbrev Term := List Nat

/-- Byte-wise lexicographic comparison, the `Ord` instance of Rust byte
slices: shorter prefixes compare less, otherwise the first differing byte
decides. -/
def cmpBytes : Term → Term → Ordering
  | [], [] => .eq
  | [], _ :: _ => .lt
  | _ :: _, [] => .gt
  | a :: as, b :: bs =>
    match compare a b with
    | .eq => cmpBytes as bs
    | o => o

theorem natCompare_swap (a b : Nat) : (compare a b).swap = compare b a := by
  rcases Nat.lt_trichotomy a b with h | h | h
  · rw [Nat.compare_eq_lt.mpr h, Nat.compare_eq_gt.mpr h]; rfl
  · rw [Nat.compare_eq_eq.mpr h, Nat.compare_eq_eq.mpr h.symm]; rfl
  · rw [Nat.compare_eq_gt.mpr h, Nat.compare_eq_lt.mpr h]; rfl

theorem cmpBytes_refl (a : Term) : cmpBytes a a = .eq := by
  induction a with
  | nil => rfl
  | cons x xs ih => simp [cmpBytes, Nat.compare_eq_eq.mpr rfl, ih]

theorem cmpBytes_eq_iff {a b : Term} : cmpBytes a b = .eq ↔ a = b := by
  constructor
  · intro h
    induction a generalizing b with
    | nil => cases b with
      | nil => rfl
      | cons y ys => simp [cmpBytes] at h
    | cons x xs ih =>
        cases b with
        | nil => simp [cmpBytes] at h
        | cons y ys =>
            simp only [cmpBytes] at h
            rcases hc : compare x y with hc' | hc' | hc' <;> rw [hc] at h
            · simp at h
            · have hxy := Nat.compare_eq_eq.mp hc
              have := ih (b := ys) h
              rw [hxy, this]
            · simp at h
  · rintro rfl; exact cmpBytes_refl a

theorem cmpBytes_swap (a b : Term) : (cmpBytes a b).swap = cmpBytes b a := by
  induction a generalizing b with
  | nil => cases b <;> rfl
  | cons x xs ih =>
      cases b with
      | nil => rfl
      | cons y ys =>
          simp only [cmpBytes]
          rcases hc : compare x y with hc' | hc' | hc'
          · rw [← natCompare_swap, hc]; rfl
          · rw [← natCompare_swap, hc]; exact ih ys
          · rw [← natCompare_swap, hc]; rfl

theorem cmpBytes_lt_trans {a b c : Term} (hab : cmpBytes a b = .lt)
    (hbc : cmpBytes b c = .lt) : cmpBytes a c = .lt := by
  induction a generalizing b c with
  | nil =>
      cases c with
      | nil =>
          cases b with
          | nil => exact hab
          | cons y ys => simp [cmpBytes] at hbc
      | cons z zs => rfl
  | cons x xs ih =>
      cases b with
      | nil => simp [cmpBytes] at hab
      | cons y ys =>
          cases c with
          | nil => simp [cmpBytes] at hbc
          | cons z zs =>
              simp only [cmpBytes] at hab hbc ⊢
              rcases hxy : compare x y with h1 | h1 | h1 <;> simp only [hxy] at hab <;>
                rcases hyz : compare y z with h2 | h2 | h2 <;> simp only [hyz] at hbc
              · have : x < z := Nat.lt_trans (Nat.compare_eq_lt.mp hxy) (Nat.compare_eq_lt.mp hyz)
                simp [Nat.compare_eq_lt.mpr this]
              · obtain rfl := Nat.compare_eq_eq.mp hyz
                simp [hxy]
              · exact absurd hbc (by decide)
              · obtain rfl := Nat.compare_eq_eq.mp hxy
                simp [hyz]
              · obtain rfl := Nat.compare_eq_eq.mp hxy
                obtain rfl := Nat.compare_eq_eq.mp hyz
                simp [Nat.compare_eq_eq.mpr rfl]
                exact ih hab hbc
              · exact absurd hbc (by decide)
              · exact absurd hab (by decide)
              · exact absurd hab (by decide)
              · exact absurd hab (by decide)

/-- `a` is at most `b` in byte order. -/
theorem cmpBytes_le_antisymm {a b : Term} (hab : cmpBytes a b ≠ .gt)
    (hba : cmpBytes b a ≠ .gt) : a = b := by
  rcases h : cmpBytes a b with h' | h' | h'
  · have : (cmpBytes a b).swap = .gt := by rw [h]; rfl
    rw [cmpBytes_swap] at this
    exact absurd this hba
  · exact cmpBytes_eq_iff.mp h
  · exact absurd h hab

theorem cmpBytes_lt_irrefl (a : Term) : cmpBytes a a ≠ .lt := by
  rw [cmpBytes_refl]; intro h; cases h

theorem cmpBytes_lt_of_lt_of_ne_gt {a b c : Term} (hab : cmpBytes a b = .lt)
    (hbc : cmpBytes b c ≠ .gt) : cmpBytes a c = .lt := by
  rcases h : cmpBytes b c with h' | h' | h'
  · exact cmpBytes_lt_trans hab h
  · rw [cmpBytes_eq_iff.mp h] at hab; exact hab
  · exact absurd h hbc

theorem cmpBytes_ne_gt_of_lt {a b : Term} (h : cmpBytes a b = .lt) :
    cmpBytes a b ≠ .gt := by rw [h]; intro h'; cases h'

theorem cmpBytes_gt_iff_swap {a b : Term} : cmpBytes a b = .gt ↔ cmpBytes b a = .lt := by
  rw [← cmpBytes_swap a b]
  cases cmpBytes a b <;> simp [Ordering.swap]

/-- `HeapItem` from the source: a pending (term, segment ordinal) pair. -/
structure HeapItem where
  term : Term
  segment_ord : Nat
deriving DecidableEq, Repr

/-- The natural lexicographic order on the (term, segment_ord) pair of a
`HeapItem`: term first (byte-wise), segment ordinal as tie-break. -/
def pairCmp (a b : HeapItem) : Ordering :=
  match cmpBytes a.term b.term with
  | .eq => compare a.segment_ord b.segment_ord
  | o => o

/-- `HeapItem::cmp` from the source:
`(&other.term, &other.segment_ord).cmp(&(&self.term, &self.segment_ord))`,
i.e. the pair comparison with the arguments swapped. -/
def HeapItem.cmp (self other : HeapItem) : Ordering :=
  match cmpBytes other.term self.term with
  | .eq => compare other.segment_ord self.segment_ord
  | o => o

/-- `HeapItem::partial_cmp` from the source: `Some(self.cmp(other))`. -/
def HeapItem.pcmp (self other : HeapItem) : Option Ordering :=
  some (HeapItem.cmp self other)

/-- `BinaryHeap::push`, modelled on the sorted-list representation: insert
keeping the list sorted by ascending (term, segment_ord) pair, i.e. by
descending `HeapItem::cmp` priority. -/
def heapPush : List HeapItem → HeapItem → List HeapItem
  | [], x => [x]
  | y :: ys, x =>
    if pairCmp x y = .gt then y :: heapPush ys x else x :: y :: ys

/-- `BinaryHeap::pop`: remove and return the greatest element under
`HeapItem::cmp`, which is the front of the sorted-list representation. -/
def heapPop : List HeapItem → Option (HeapItem × List HeapItem)
  | [] => none
  | x :: xs => some (x, xs)

/-- `BinaryHeap::peek`: the element `heapPop` would return. -/
def heapPeek : List HeapItem → Option HeapItem
  | [] => none
  | x :: _ => some x

theorem HeapItem.cmp_eq_pairCmp_swap (a b : HeapItem) :
    HeapItem.cmp a b = (pairCmp a b).swap := by
  show pairCmp b a = (pairCmp a b).swap
  unfold pairCmp
  rw [← cmpBytes_swap a.term b.term]
  rcases cmpBytes a.term b.term with _ | _ | _ <;>
    simp [Ordering.swap, ← natCompare_swap a.segment_ord b.segment_ord]

theorem pairCmp_eq_iff {a b : HeapItem} : pairCmp a b = .eq ↔ a = b := by
  cases a with
  | mk ta oa =>
      cases b with
      | mk tb ob =>
          unfold pairCmp
          rcases h : cmpBytes ta tb with h' | h' | h'
          · simp only [HeapItem.mk.injEq]
            constructor
            · intro hc; cases hc
            · rintro ⟨rfl, rfl⟩; rw [cmpBytes_refl] at h; cases h
          · obtain rfl := cmpBytes_eq_iff.mp h
            simp [Nat.compare_eq_eq]
          · simp only [HeapItem.mk.injEq]
            constructor
            · intro hc; cases hc
            · rintro ⟨rfl, rfl⟩; rw [cmpBytes_refl] at h; cases h

theorem pairCmp_swap (a b : HeapItem) : (pairCmp a b).swap = pairCmp b a :=
  (HeapItem.cmp_eq_pairCmp_swap a b).symm

theorem pairCmp_lt_trans {a b c : HeapItem} (hab : pairCmp a b = .lt)
    (hbc : pairCmp b c = .lt) : pairCmp a c = .lt := by
  unfold pairCmp at hab hbc ⊢
  rcases h1 : cmpBytes a.term b.term with h' | h' | h' <;> simp only [h1] at hab <;>
    rcases h2 : cmpBytes b.term c.term with h'' | h'' | h'' <;> simp only [h2] at hbc
  · simp [cmpBytes_lt_trans h1 h2]
  · rw [cmpBytes_eq_iff.mp h2] at h1
    simp [h1]
  · exact absurd hbc (by decide)
  · rw [cmpBytes_eq_iff.mp h1]
    simp [h2]
  · rw [cmpBytes_eq_iff.mp h1, cmpBytes_eq_iff.mp h2, cmpBytes_refl]
    simp only
    exact Nat.compare_eq_lt.mpr (Nat.lt_trans (Nat.compare_eq_lt.mp hab) (Nat.compare_eq_lt.mp hbc))
  · exact absurd hbc (by decide)
  · exact absurd hab (by decide)
  · exact absurd hab (by decide)
  · exact absurd hab (by decide)

theorem pairCmp_term_ne_gt {a b : HeapItem} (h : pairCmp a b ≠ .gt) :
    cmpBytes a.term b.term ≠ .gt := by
  intro hc
  unfold pairCmp at h
  rw [hc] at h
  exact h rfl

theorem pairCmp_lt_ord {a b : HeapItem} (h : pairCmp a b = .lt)
    (ht : a.term = b.term) : a.segment_ord < b.segment_ord := by
  unfold pairCmp at h
  rw [ht, cmpBytes_refl] at h
  exact Nat.compare_eq_lt.mp h

theorem heapPush_perm (h : List HeapItem) (x : HeapItem) :
    List.Perm (heapPush h x) (x :: h) := by
  induction h with
  | nil => exact List.Perm.refl _
  | cons y ys ih =>
      simp only [heapPush]
      split
      · exact ((ih).cons y).trans (List.Perm.swap x y ys)
      · exact List.Perm.refl _

theorem mem_heapPush {h : List HeapItem} {x y : HeapItem} :
    y ∈ heapPush h x ↔ y = x ∨ y ∈ h := by
  rw [(heapPush_perm h x).mem_iff]
  simp

theorem heapPush_sorted {h : List HeapItem} {x : HeapItem}
    (hs : h.Pairwise (fun a b => pairCmp a b = .lt))
    (hfresh : ∀ z ∈ h, pairCmp x z ≠ .eq) :
    (heapPush h x).Pairwise (fun a b => pairCmp a b = .lt) := by
  induction h with
  | nil => simp [heapPush]
  | cons y ys ih =>
      rw [List.pairwise_cons] at hs
      obtain ⟨hy, hys⟩ := hs
      simp only [heapPush]
      split
      · rename_i hgt
        rw [List.pairwise_cons]
        refine ⟨?_, ih hys (fun z hz => hfresh z (List.mem_cons_of_mem y hz))⟩
        intro w hw
        rcases mem_heapPush.mp hw with heq | hw'
        · subst heq
          rw [← pairCmp_swap y w] at hgt
          rcases h' : pairCmp y w with h'' | h'' | h''
          · rfl
          · rw [h'] at hgt; exact absurd hgt (by decide)
          · rw [h'] at hgt; exact absurd hgt (by decide)
        · exact hy w hw'
      · rename_i hngt
        have hne : pairCmp x y ≠ .eq := hfresh y (List.mem_cons_self y ys)
        have hlt : pairCmp x y = .lt := by
          rcases h' : pairCmp x y with h'' | h'' | h''
          · rfl
          · exact absurd h' hne
          · exact absurd h' hngt
        rw [List.pairwise_cons]
        constructor
        · intro w hw
          rcases List.mem_cons.mp hw with heq | hw'
          · subst heq; exact hlt
          · exact pairCmp_lt_trans hlt (hy w hw')
        · exact List.pairwise_cons.mpr ⟨hy, hys⟩

theorem heapPush_takeWhile_gt {h : List HeapItem} {x : HeapItem} {m : Term}
    (hm : cmpBytes m x.term = .lt) :
    (heapPush h x).takeWhile (fun z => z.term == m) =
      h.takeWhile (fun z => z.term == m) := by
  have hxm : (x.term == m) = false := by
    rw [beq_eq_false_iff_ne]
    intro hx
    rw [hx, cmpBytes_refl] at hm
    cases hm
  induction h with
  | nil => simp [heapPush, List.takeWhile, hxm]
  | cons y ys ih =>
      simp only [heapPush]
      split
      · simp only [List.takeWhile]
        cases hy : (y.term == m) <;> simp [hy, ih]
      · rename_i hngt
        have hym : (y.term == m) = false := by
          rw [beq_eq_false_iff_ne]
          intro hy
          have : cmpBytes x.term y.term ≠ .gt := pairCmp_term_ne_gt hngt
          have hlt : cmpBytes m y.term = .lt := cmpBytes_lt_of_lt_of_ne_gt hm this
          rw [hy, cmpBytes_refl] at hlt
          cases hlt
        simp [List.takeWhile, hxm, hym]

theorem find?_heapPush_of_false {h : List HeapItem} {x : HeapItem}
    {p : HeapItem → Bool} (hx : p x = false) :
    (heapPush h x).find? p = h.find? p := by
  induction h with
  | nil => simp [heapPush, List.find?, hx]
  | cons y ys ih =>
      simp only [heapPush]
      split
      · cases hy : p y <;> simp [List.find?, hy, ih]
      · cases hy : p y <;> simp [List.find?, hy, hx]

theorem find?_heapPush_of_fresh {h : List HeapItem} {x : HeapItem}
    {p : HeapItem → Bool} (hx : p x = true) (hall : ∀ z ∈ h, p z = false) :
    (heapPush h x).find? p = some x := by
  induction h with
  | nil => simp [heapPush, List.find?, hx]
  | cons y ys ih =>
      have hy : p y = false := hall y (List.mem_cons_self y ys)
      simp only [heapPush]
      split
      · simp [List.find?, hy]
        exact ih (fun z hz => hall z (List.mem_cons_of_mem y hz))
      · simp [List.find?, hx]

/-- The state of `TermIterator`.  `key_streams` holds, per segment ordinal,
the terms the stream has not yet yielded. -/
structure TermIterator where
  key_streams : List (List Term)
  heap : List HeapItem
  current_term : Term
  current_segment_ords : List Nat
deriving DecidableEq, Repr

/-- `TermIterator::push_next_segment_el`: record `segment_ord` in the output
buffer, then pull the next term of that stream and, if one exists, push it on
the heap.  (The source indexes `key_streams[segment_ord]`; every call site
passes an in-range ordinal, and out of range the embedding is a no-op.) -/
def push_next_segment_el (it : TermIterator) (segment_ord : Nat) : TermIterator :=
  match it.key_streams[segment_ord]? with
  | some (term :: rest) =>
      { key_streams := it.key_streams.set segment_ord rest,
        heap := heapPush it.heap ⟨term, segment_ord⟩,
        current_term := it.current_term,
        current_segment_ords := it.current_segment_ords ++ [segment_ord] }
  | _ =>
      { it with current_segment_ords := it.current_segment_ords ++ [segment_ord] }

/-- `TermIterator::new`: start from empty buffers and the given streams, then
seed the heap by calling `push_next_segment_el` once per ordinal. -/
def TermIterator.new (key_streams : List (List Term)) : TermIterator :=
  (List.range key_streams.length).foldl push_next_segment_el
    { key_streams := key_streams
      heap := []
      current_term := []
      current_segment_ords := [] }

/-- One element of heap plus stream content, the termination measure of the
drain loop in `next`: each loop iteration pops one heap entry and moves at
most one stream element into the heap. -/
def totalRemaining (it : TermIterator) : Nat :=
  it.heap.length + (it.key_streams.map List.length).sum

theorem heapPush_length (h : List HeapItem) (x : HeapItem) :
    (heapPush h x).length = h.length + 1 := by
  induction h with
  | nil => rfl
  | cons y ys ih =>
      simp only [heapPush]
      split <;> simp [ih]

theorem sum_map_length_set (l : List (List α)) (i : Nat) (a : α) (rest : List α)
    (h : l[i]? = some (a :: rest)) :
    ((l.set i rest).map List.length).sum + 1 = (l.map List.length).sum := by
  induction l generalizing i with
  | nil => simp at h
  | cons s ss ih =>
      cases i with
      | zero =>
          simp only [List.getElem?_cons_zero, Option.some.injEq] at h
          subst h
          simp [Nat.add_comm, Nat.add_assoc, Nat.add_left_comm]
      | succ j =>
          simp only [List.getElem?_cons_succ] at h
          have := ih j h
          simp only [List.set, List.map, List.sum_cons]
          omega

theorem totalRemaining_push_le (it : TermIterator) (o : Nat) :
    totalRemaining (push_next_segment_el it o) ≤ totalRemaining it := by
  unfold push_next_segment_el
  cases hg : it.key_streams[o]? with
  | none => simp [totalRemaining, hg]
  | some s =>
      cases s with
      | nil => simp [totalRemaining, hg]
      | cons t rest =>
          simp only [hg]
          have hlen := heapPush_length it.heap ⟨t, o⟩
          have hsum := sum_map_length_set it.key_streams o t rest hg
          simp only [totalRemaining, hlen]
          omega

/-- The drain loop in `TermIterator::next`, written with an explicit iteration
bound so that it is structurally recursive: while the heap's top has the same
term as `current_term`, pop it (the `none` branch of the pop is the source's
`expect` panic; it is unreachable, see the safety theorem below) and refill
its stream.  Each iteration strictly decreases `totalRemaining`, so
`totalRemaining it` bounds the number of iterations; `drainGo_congr` below
shows any bound at least that large gives the same result, i.e. the loop
always exits through its `break`, never by exhausting the bound. -/
def drainGo : Nat → TermIterator → TermIterator
  | 0, it => it
  | fuel + 1, it =>
    match heapPeek it.heap with
    | some nextHeapIt =>
      if nextHeapIt.term = it.current_term then
        match heapPop it.heap with
        | some (popped, rest) =>
            drainGo fuel
              (push_next_segment_el { it with heap := rest } popped.segment_ord)
        | none => it
      else it
    | none => it

/-- The drain loop of `TermIterator::next`, run to completion. -/
def drainEqual (it : TermIterator) : TermIterator :=
  drainGo (totalRemaining it) it

theorem drainGo_nil {n : Nat} {it : TermIterator} (h : it.heap = []) :
    drainGo n it = it := by
  cases n with
  | zero => rfl
  | succ n => simp [drainGo, h, heapPeek]

theorem drainGo_stop {n : Nat} {it : TermIterator} {x : HeapItem}
    {xs : List HeapItem} (hh : it.heap = x :: xs) (ht : x.term ≠ it.current_term) :
    drainGo n it = it := by
  cases n with
  | zero => rfl
  | succ n => simp [drainGo, hh, heapPeek, ht]

theorem drainGo_succ_step {n : Nat} {it : TermIterator} {x : HeapItem}
    {xs : List HeapItem} (hh : it.heap = x :: xs) (ht : x.term = it.current_term) :
    drainGo (n + 1) it =
      drainGo n (push_next_segment_el { it with heap := xs } x.segment_ord) := by
  simp [drainGo, hh, heapPeek, heapPop, ht]

theorem totalRemaining_step_le {it : TermIterator} {x : HeapItem}
    {xs : List HeapItem} (hh : it.heap = x :: xs) :
    totalRemaining (push_next_segment_el { it with heap := xs } x.segment_ord) + 1
      ≤ totalRemaining it := by
  have h1 := totalRemaining_push_le { it with heap := xs } x.segment_ord
  have h2 : totalRemaining { it with heap := xs } + 1 = totalRemaining it := by
    simp [totalRemaining, hh]
    omega
  omega

theorem drainGo_congr : ∀ (n m : Nat) (it : TermIterator),
    totalRemaining it ≤ n → totalRemaining it ≤ m → drainGo n it = drainGo m it := by
  intro n
  induction n with
  | zero =>
      intro m it hn _
      have hnil : it.heap = [] := by
        rw [Nat.le_zero] at hn
        unfold totalRemaining at hn
        have : it.heap.length = 0 := by omega
        exact List.eq_nil_of_length_eq_zero this
      rw [drainGo_nil hnil, drainGo_nil hnil]
  | succ n ih =>
      intro m it hn hm
      cases hh : it.heap with
      | nil => rw [drainGo_nil hh, drainGo_nil hh]
      | cons x xs =>
          by_cases ht : x.term = it.current_term
          · cases m with
            | zero =>
                exfalso
                simp [totalRemaining, hh] at hm
            | succ m =>
                rw [drainGo_succ_step hh ht, drainGo_succ_step hh ht]
                have hstep := totalRemaining_step_le hh
                exact ih m _ (by omega) (by omega)
          · rw [drainGo_stop hh ht, drainGo_stop hh ht]

/-- `TermIterator::next` (`Streamer::next`): clear the ordinal buffer; pop the
heap; on success move the popped term into `current_term`, refill the popped
stream, drain all further heap entries equal to the current term, and yield
the (term, ordinals) view.  The returned pair is (yielded item, new state). -/
def TermIterator.next (it : TermIterator) : Option (Term × List Nat) × TermIterator :=
  let it0 : TermIterator := { it with current_segment_ords := [] }
  match heapPop it0.heap with
  | none => (none, it0)
  | some (head, rest) =>
      let it1 : TermIterator := { it0 with heap := rest, current_term := head.term }
      let it2 := push_next_segment_el it1 head.segment_ord
      let it3 := drainEqual it2
      (some (it3.current_term, it3.current_segment_ords), it3)

theorem heap_cons_of_pop {hp0 : List HeapItem} {popped : HeapItem}
    {rest : List HeapItem} (hp : heapPop hp0 = some (popped, rest)) :
    hp0 = popped :: rest := by
  cases hp0 with
  | nil => simp [heapPop] at hp
  | cons z zs =>
      simp only [heapPop, Option.some.injEq, Prod.mk.injEq] at hp
      rw [hp.1, hp.2]

theorem totalRemaining_drainGo_le : ∀ (n : Nat) (it : TermIterator),
    totalRemaining (drainGo n it) ≤ totalRemaining it := by
  intro n
  induction n with
  | zero => intro it; exact le_refl _
  | succ n ih =>
      intro it
      cases hh : it.heap with
      | nil => rw [drainGo_nil hh]
      | cons x xs =>
          by_cases ht : x.term = it.current_term
          · rw [drainGo_succ_step hh ht]
            refine le_trans (ih _) ?_
            have := totalRemaining_step_le hh
            omega
          · rw [drainGo_stop hh ht]

theorem totalRemaining_drain_le (it : TermIterator) :
    totalRemaining (drainEqual it) ≤ totalRemaining it :=
  totalRemaining_drainGo_le _ it

theorem totalRemaining_next_lt (it : TermIterator) (h : (it.next).1.isSome) :
    totalRemaining (it.next).2 < totalRemaining it := by
  unfold TermIterator.next at h ⊢
  cases hheap : it.heap with
  | nil => simp [heapPop, hheap] at h
  | cons z zs =>
      simp only [hheap, heapPop]
      refine lt_of_le_of_lt (totalRemaining_drain_le _) ?_
      refine lt_of_le_of_lt (totalRemaining_push_le _ _) ?_
      simp [totalRemaining, hheap]

/-- The whole output of the iterator: items yielded by successive calls to
`next` until one yields nothing. -/
def runAll (it : TermIterator) : List (Term × List Nat) :=
  match h : it.next with
  | (some out, it') => out :: runAll it'
  | (none, _) => []
termination_by totalRemaining it
decreasing_by
  have hs : (it.next).1.isSome := by rw [h]; rfl
  have := totalRemaining_next_lt it hs
  rw [h] at this
  exact this

/-- A valid input stream: terms strictly ascending in byte order, hence no
repeats (the contract of a sorted key stream). -/
def sortedBytes (l : List Term) : Prop :=
  l.Pairwise (fun a b => cmpBytes a b = .lt)

instance (l : List Term) : Decidable (sortedBytes l) := by
  unfold sortedBytes
  infer_instance

/-- The heap entry pending for stream `i`, if any. -/
def heapItemOf (it : TermIterator) (i : Nat) : Option HeapItem :=
  it.heap.find? (fun x => x.segment_ord == i)

/-- What stream `i` still has to contribute to the merge: its pending heap
entry (if any) followed by the terms it has not yet been pulled for. -/
def remainingOf (it : TermIterator) (i : Nat) : List Term :=
  match heapItemOf it i with
  | some x => x.term :: it.key_streams.getD i []
  | none => it.key_streams.getD i []

/-- All conceptual remaining streams, by ordinal. -/
def remainings (it : TermIterator) : List (List Term) :=
  (List.range it.key_streams.length).map (remainingOf it)

/-- The data-structure invariant of the merge: every pending entry names a
stream, at most one entry per stream, the heap is sorted by ascending
(term, ordinal) pair, a stream with no pending entry is exhausted, and every
stream with its pending term put back in front is strictly ascending. -/
structure Inv (it : TermIterator) : Prop where
  ords_lt : ∀ x ∈ it.heap, x.segment_ord < it.key_streams.length
  ords_nodup : (it.heap.map HeapItem.segment_ord).Nodup
  heap_sorted : it.heap.Pairwise (fun a b => pairCmp a b = .lt)
  exhausted_nil : ∀ i, i < it.key_streams.length →
    (∀ x ∈ it.heap, x.segment_ord ≠ i) → it.key_streams.getD i [] = []
  streams_sorted : ∀ x ∈ it.heap,
    sortedBytes (x.term :: it.key_streams.getD x.segment_ord [])

/-- The least head among the streams: the term the merge must yield next.
This is the specification side, written directly from the spec's words. -/
def headsMin : List (List Term) → Option Term
  | [] => none
  | s :: ss =>
    match s.head? with
    | none => headsMin ss
    | some t =>
      match headsMin ss with
      | none => some t
      | some u => if cmpBytes t u = .lt then some t else some u

/-- Drop the head of every stream whose head is `m`. -/
def dropHeadsEq (m : Term) (streams : List (List Term)) : List (List Term) :=
  streams.map (fun s => if s.head? = some m then s.tail else s)

theorem headsMin_exists {ss : List (List Term)} {m : Term}
    (h : headsMin ss = some m) : ∃ s ∈ ss, s.head? = some m := by
  induction ss with
  | nil => simp [headsMin] at h
  | cons s ss ih =>
      cases hh : s.head? with
      | none =>
          simp only [headsMin, hh] at h
          obtain ⟨u, hu, hu2⟩ := ih h
          exact ⟨u, List.mem_cons_of_mem s hu, hu2⟩
      | some t =>
          simp only [headsMin, hh] at h
          cases hm : headsMin ss with
          | none =>
              simp only [hm] at h
              injection h with h
              exact ⟨s, List.mem_cons_self s ss, by rw [hh, h]⟩
          | some u =>
              simp only [hm] at h
              split at h
              · injection h with h
                exact ⟨s, List.mem_cons_self s ss, by rw [hh, h]⟩
              · injection h with h
                subst h
                obtain ⟨w, hw, hw2⟩ := ih hm
                exact ⟨w, List.mem_cons_of_mem s hw, hw2⟩

theorem headsMin_none_iff {ss : List (List Term)} :
    headsMin ss = none ↔ ∀ s ∈ ss, s = [] := by
  induction ss with
  | nil => simp [headsMin]
  | cons s ss ih =>
      cases hh : s.head? with
      | none =>
          have hs : s = [] := by cases s with
            | nil => rfl
            | cons a as => simp at hh
          simp only [headsMin, hh]
          simp [hs, ih]
      | some t =>
          have hs : s ≠ [] := by
            intro hc
            rw [hc] at hh
            cases hh
          simp only [headsMin, hh]
          constructor
          · intro h
            cases hm : headsMin ss with
            | none => rw [hm] at h; cases h
            | some u =>
                simp only [hm] at h
                split at h <;> cases h
          · intro h
            exact absurd (h s (List.mem_cons_self s ss)) hs

theorem headsMin_le {ss : List (List Term)} {m : Term}
    (h : headsMin ss = some m) :
    ∀ s ∈ ss, ∀ t, s.head? = some t → cmpBytes m t ≠ .gt := by
  induction ss generalizing m with
  | nil => simp [headsMin] at h
  | cons s ss ih =>
      intro w hw t ht
      rcases List.mem_cons.mp hw with heq | hw'
      · subst heq
        simp only [headsMin, ht] at h
        cases hm : headsMin ss with
        | none =>
            simp only [hm] at h
            injection h with h
            subst h
            rw [cmpBytes_refl]
            intro hc; cases hc
        | some u =>
            simp only [hm] at h
            split at h
            · injection h with h
              subst h
              rw [cmpBytes_refl]
              intro hc; cases hc
            · rename_i hnlt
              injection h with h
              subst h
              intro hgt
              exact hnlt (cmpBytes_gt_iff_swap.mp hgt)
      · cases hsh : s.head? with
        | none =>
            simp only [headsMin, hsh] at h
            exact ih h w hw' t ht
        | some t3 =>
            simp only [headsMin, hsh] at h
            cases hm : headsMin ss with
            | none =>
                simp only [hm] at h
                rw [headsMin_none_iff] at hm
                have := hm w hw'
                rw [this] at ht
                cases ht
            | some u =>
                simp only [hm] at h
                split at h
                · rename_i hlt
                  injection h with h
                  subst h
                  have hu := ih hm w hw' t ht
                  exact cmpBytes_ne_gt_of_lt (cmpBytes_lt_of_lt_of_ne_gt hlt hu)
                · injection h with h
                  subst h
                  exact ih hm w hw' t ht

theorem headsMin_unique {ss : List (List Term)} {m : Term}
    (hmem : ∃ s ∈ ss, s.head? = some m)
    (hle : ∀ s ∈ ss, ∀ t, s.head? = some t → cmpBytes m t ≠ .gt) :
    headsMin ss = some m := by
  obtain ⟨s, hs, hsh⟩ := hmem
  cases hm : headsMin ss with
  | none =>
      rw [headsMin_none_iff] at hm
      rw [hm s hs] at hsh
      cases hsh
  | some u =>
      have h1 : cmpBytes u m ≠ .gt := headsMin_le hm s hs m hsh
      obtain ⟨w, hw, hwh⟩ := headsMin_exists hm
      have h2 : cmpBytes m u ≠ .gt := hle w hw u hwh
      rw [cmpBytes_le_antisymm h2 h1]

theorem dropHeads_sum_le (m : Term) (ss : List (List Term)) :
    ((dropHeadsEq m ss).map List.length).sum ≤ (ss.map List.length).sum := by
  induction ss with
  | nil => simp [dropHeadsEq]
  | cons s ss ih =>
      simp only [dropHeadsEq, List.map_cons, List.sum_cons] at ih ⊢
      have hle : (if s.head? = some m then s.tail else s).length ≤ s.length := by
        split
        · rw [List.length_tail]; omega
        · exact le_refl _
      omega

theorem dropHeads_sum_lt {m : Term} {ss : List (List Term)}
    (h : ∃ s ∈ ss, s.head? = some m) :
    ((dropHeadsEq m ss).map List.length).sum < (ss.map List.length).sum := by
  induction ss with
  | nil => simp at h
  | cons s ss ih =>
      simp only [dropHeadsEq, List.map_cons, List.sum_cons] at ih ⊢
      obtain ⟨w, hw, hwh⟩ := h
      rcases List.mem_cons.mp hw with heq | hw'
      · subst heq
        rw [if_pos hwh]
        have : w.length = w.tail.length + 1 := by
          cases w with
          | nil => cases hwh
          | cons a as => simp
        have hle := dropHeads_sum_le m ss
        simp only [dropHeadsEq] at hle
        omega
      · have := ih ⟨w, hw', hwh⟩
        have hle : (if s.head? = some m then s.tail else s).length ≤ s.length := by
          split
          · rw [List.length_tail]; omega
          · exact le_refl _
        omega

/-- The specification of the whole merge, written from the spec: repeatedly
take the least head `m` among the streams, output `m` with the ordinals of
the streams whose head is `m`, and drop those heads. -/
def mergeSpec (streams : List (List Term)) : List (Term × List Nat) :=
  match hm : headsMin streams with
  | none => []
  | some m =>
      (m, (List.range streams.length).filter
            (fun i => decide ((streams.getD i []).head? = some m)))
        :: mergeSpec (dropHeadsEq m streams)
termination_by (streams.map List.length).sum
decreasing_by
  exact dropHeads_sum_lt (headsMin_exists hm)

theorem mergeSpec_eq_nil {ss : List (List Term)} (h : headsMin ss = none) :
    mergeSpec ss = [] := by
  rw [mergeSpec]
  split
  · rfl
  · rename_i m hm
    rw [h] at hm
    cases hm

theorem mergeSpec_eq_cons {ss : List (List Term)} {m : Term}
    (h : headsMin ss = some m) :
    mergeSpec ss =
      (m, (List.range ss.length).filter
            (fun i => decide ((ss.getD i []).head? = some m)))
        :: mergeSpec (dropHeadsEq m ss) := by
  rw [mergeSpec]
  split
  · rename_i hm
    rw [h] at hm
    cases hm
  · rename_i m2 hm
    rw [h] at hm
    injection hm with hm
    subst hm
    rfl

theorem getD_dropHeadsEq (m : Term) (ss : List (List Term)) (i : Nat) :
    (dropHeadsEq m ss).getD i [] =
      (fun s => if s.head? = some m then s.tail else s) (ss.getD i []) := by
  induction ss generalizing i with
  | nil => cases i <;> simp [dropHeadsEq]
  | cons s ss ih =>
      cases i with
      | zero => simp [dropHeadsEq]
      | succ j =>
          simp only [dropHeadsEq, List.map_cons, List.getD_cons_succ]
          exact ih j

theorem dropHeadsEq_sorted {m : Term} {ss : List (List Term)}
    (h : ∀ s ∈ ss, sortedBytes s) :
    ∀ s ∈ dropHeadsEq m ss, sortedBytes s := by
  intro s' hs'
  obtain ⟨s, hs, rfl⟩ := List.mem_map.mp hs'
  split
  · exact (h s hs).tail
  · exact h s hs

theorem sorted_head_lt {s : List Term} {a : Term} (h : sortedBytes (a :: s)) :
    ∀ u ∈ s, cmpBytes a u = .lt := by
  rw [sortedBytes, List.pairwise_cons] at h
  exact h.1

theorem mem_sorted_head {s : List Term} {t : Term} (hs : sortedBytes s)
    (ht : t ∈ s) : ∀ u, s.head? = some u → cmpBytes u t ≠ .gt := by
  intro u hu
  cases s with
  | nil => cases ht
  | cons a as =>
      injection hu with hu
      subst hu
      rcases List.mem_cons.mp ht with heq | ht'
      · subst heq
        rw [cmpBytes_refl]
        intro hc; cases hc
      · exact cmpBytes_ne_gt_of_lt (sorted_head_lt hs t ht')

/-- After dropping the round's minimum `m`, every element left anywhere is
strictly greater than `m`. -/
theorem dropHeadsEq_all_gt {m : Term} {ss : List (List Term)}
    (hsorted : ∀ s ∈ ss, sortedBytes s) (hm : headsMin ss = some m) :
    ∀ s' ∈ dropHeadsEq m ss, ∀ u ∈ s', cmpBytes m u = .lt := by
  intro s' hs' u hu
  obtain ⟨s, hs, rfl⟩ := List.mem_map.mp hs'
  have hss := hsorted s hs
  split at hu
  · rename_i hhead
    cases s with
    | nil => cases hu
    | cons a as =>
        injection hhead with hhead
        subst hhead
        exact sorted_head_lt hss u hu
  · rename_i hhead
    cases s with
    | nil => cases hu
    | cons a as =>
        have hle : cmpBytes m a ≠ .gt := headsMin_le hm (a :: as) hs a rfl
        have hne : m ≠ a := by
          intro hc
          rw [hc] at hhead
          exact hhead rfl
        have hlt : cmpBytes m a = .lt := by
          rcases hc : cmpBytes m a with h' | h' | h'
          · rfl
          · exact absurd (cmpBytes_eq_iff.mp hc) hne
          · exact absurd hc hle
        rcases List.mem_cons.mp hu with heq | hu'
        · subst heq; exact hlt
        · exact cmpBytes_lt_trans hlt (sorted_head_lt hss u hu')

theorem mergeSpec_mem_stream {ss : List (List Term)} {t : Term} {o : List Nat}
    (h : (t, o) ∈ mergeSpec ss) : ∃ s ∈ ss, t ∈ s := by
  induction ss using mergeSpec.induct with
  | case1 ss hm => rw [mergeSpec_eq_nil hm] at h; cases h
  | case2 ss m hm ih =>
      rw [mergeSpec_eq_cons hm] at h
      rcases List.mem_cons.mp h with heq | h'
      · injection heq with h1 h2
        subst h1
        obtain ⟨s, hs, hsh⟩ := headsMin_exists hm
        refine ⟨s, hs, ?_⟩
        cases s with
        | nil => cases hsh
        | cons a as =>
            injection hsh with hsh
            rw [hsh]
            exact List.mem_cons_self _ _
      · obtain ⟨s', hs', ht⟩ := ih h'
        obtain ⟨s, hs, rfl⟩ := List.mem_map.mp hs'
        refine ⟨s, hs, ?_⟩
        revert ht
        split
        · exact fun ht => List.mem_of_mem_tail ht
        · exact id

theorem mergeSpec_sorted {ss : List (List Term)} :
    (∀ s ∈ ss, sortedBytes s) →
      (mergeSpec ss).Pairwise (fun p q => cmpBytes p.1 q.1 = .lt) := by
  induction ss using mergeSpec.induct with
  | case1 ss hm =>
      intro _
      rw [mergeSpec_eq_nil hm]
      exact List.Pairwise.nil
  | case2 ss m hm ih =>
      intro hsorted
      rw [mergeSpec_eq_cons hm, List.pairwise_cons]
      constructor
      · rintro ⟨t, o⟩ hto
        obtain ⟨s', hs', ht⟩ := mergeSpec_mem_stream hto
        exact dropHeadsEq_all_gt hsorted hm s' hs' t ht
      · exact ih (dropHeadsEq_sorted hsorted)

theorem mergeSpec_complete {ss : List (List Term)} :
    (∀ s ∈ ss, sortedBytes s) →
      ∀ s ∈ ss, ∀ t ∈ s, ∃ o, (t, o) ∈ mergeSpec ss := by
  induction ss using mergeSpec.induct with
  | case1 ss hm =>
      intro _ s hs t ht
      rw [headsMin_none_iff] at hm
      rw [hm s hs] at ht
      cases ht
  | case2 ss m hm ih =>
      intro hsorted s hs t ht
      rw [mergeSpec_eq_cons hm]
      by_cases hteq : t = m
      · subst hteq
        exact ⟨_, List.mem_cons_self _ _⟩
      · have hmem : t ∈ (if s.head? = some m then s.tail else s) := by
          split
          · rename_i hhead
            cases s with
            | nil => cases ht
            | cons a as =>
                injection hhead with hhead
                rcases List.mem_cons.mp ht with heq | h'
                · rw [heq, hhead] at hteq
                  exact absurd rfl hteq
                · exact h'
          · exact ht
        have hs' : (if s.head? = some m then s.tail else s) ∈ dropHeadsEq m ss :=
          List.mem_map_of_mem _ hs
        obtain ⟨o, ho⟩ :=
          ih (dropHeadsEq_sorted hsorted) _ hs' t hmem
        exact ⟨o, List.mem_cons_of_mem _ ho⟩

theorem mergeSpec_ords {ss : List (List Term)} :
    (∀ s ∈ ss, sortedBytes s) →
      ∀ t o, (t, o) ∈ mergeSpec ss →
        o = (List.range ss.length).filter (fun i => decide (t ∈ ss.getD i [])) := by
  induction ss using mergeSpec.induct with
  | case1 ss hm =>
      intro _ t o h
      rw [mergeSpec_eq_nil hm] at h
      cases h
  | case2 ss m hm ih =>
      intro hsorted t o h
      rw [mergeSpec_eq_cons hm] at h
      rcases List.mem_cons.mp h with heq | h'
      · injection heq with h1 h2
        subst h1 h2
        apply List.filter_congr
        intro i hi
        rw [List.mem_range] at hi
        rw [decide_eq_decide]
        have hsmem : ss.getD i [] ∈ ss := by
          rw [List.getD_eq_getElem _ _ hi]
          exact List.getElem_mem _
        constructor
        · intro hhead
          cases hcase : ss.getD i [] with
          | nil => rw [hcase] at hhead; simp at hhead
          | cons a as =>
              rw [hcase] at hhead
              injection hhead with hhead
              rw [hhead]
              exact List.mem_cons_self _ _
        · intro hmem
          have h1 := mem_sorted_head (hsorted _ hsmem) hmem
          cases hcase : ss.getD i [] with
          | nil => rw [hcase] at hmem; cases hmem
          | cons a as =>
              have h2 : cmpBytes a t ≠ .gt := by
                apply h1
                rw [hcase]
                rfl
              have h3 : cmpBytes t a ≠ .gt :=
                headsMin_le hm _ hsmem a (by rw [hcase]; rfl)
              rw [cmpBytes_le_antisymm h3 h2]
              rfl
      · have ih' := ih (dropHeadsEq_sorted hsorted) t o h'
        have hgt : cmpBytes m t = .lt := by
          obtain ⟨s', hs', ht⟩ := mergeSpec_mem_stream h'
          exact dropHeadsEq_all_gt hsorted hm s' hs' t ht
        have htne : t ≠ m := by
          intro hc
          rw [hc] at hgt
          exact cmpBytes_lt_irrefl m hgt
        rw [ih']
        have hlen : (dropHeadsEq m ss).length = ss.length := by
          simp [dropHeadsEq]
        rw [hlen]
        apply List.filter_congr
        intro i hi
        rw [decide_eq_decide]
        rw [getD_dropHeadsEq]
        simp only []
        split
        · rename_i hhead
          cases hcase : ss.getD i [] with
          | nil => rw [hcase] at hhead; simp at hhead
          | cons a as =>
              rw [hcase] at hhead
              injection hhead with hhead
              subst hhead
              simp [List.mem_cons, htne]
        · exact Iff.rfl

theorem countP_fst_le_one {l : List (Term × List Nat)}
    (h : l.Pairwise (fun p q => cmpBytes p.1 q.1 = .lt)) (t : Term) :
    l.countP (fun p => p.1 == t) ≤ 1 := by
  induction l with
  | nil => simp
  | cons p l ih =>
      rw [List.pairwise_cons] at h
      rw [List.countP_cons]
      by_cases hp : p.1 = t
      · have hz : l.countP (fun q => q.1 == t) = 0 := by
          rw [List.countP_eq_zero]
          intro q hq
          have hlt := h.1 q hq
          intro hc
          rw [beq_iff_eq] at hc
          rw [hp, ← hc] at hlt
          exact cmpBytes_lt_irrefl q.1 hlt
        simp [hz, hp]
      · have : (p.1 == t) = false := beq_eq_false_iff_ne.mpr hp
        simp [this]
        exact ih h.2
def runIter : TermIterator → Nat → List (Option (Term × List Nat))
  | _, 0 => []
  | it, n + 1 =>
      let (r, it') := it.next
      r :: runIter it' n

/-- The state after `n` successive calls to `next`. -/
def iterate : TermIterator → Nat → TermIterator
  | it, 0 => it
  | it, n + 1 => iterate (it.next).2 n

theorem heapPeek_none_iff {h : List HeapItem} : heapPeek h = none ↔ h = [] := by
  cases h <;> simp [heapPeek]

theorem heapPop_of_peek {h : List HeapItem} {x : HeapItem}
    (hk : heapPeek h = some x) : heapPop h = some (x, h.tail) := by
  cases h with
  | nil => cases hk
  | cons y ys =>
      injection hk with hk
      rw [heapPop, hk]
      rfl

theorem push_fields (it : TermIterator) (o : Nat) :
    (push_next_segment_el it o).current_term = it.current_term ∧
    (push_next_segment_el it o).current_segment_ords =
      it.current_segment_ords ++ [o] ∧
    (push_next_segment_el it o).key_streams.length = it.key_streams.length := by
  unfold push_next_segment_el
  split
  · rename_i term rest hg
    refine ⟨rfl, rfl, ?_⟩
    simp [List.length_set]
  · exact ⟨rfl, rfl, rfl⟩

/-- Case analysis for `push_next_segment_el` at an in-range ordinal: either
the stream is exhausted and only the ordinal buffer changes, or its next term
enters the heap and leaves the stream. -/
theorem push_cases (it : TermIterator) (o : Nat) (ho : o < it.key_streams.length) :
    (it.key_streams.getD o [] = [] ∧
     push_next_segment_el it o =
       { it with current_segment_ords := it.current_segment_ords ++ [o] }) ∨
    (∃ t rest, it.key_streams.getD o [] = t :: rest ∧
     push_next_segment_el it o =
       { key_streams := it.key_streams.set o rest,
         heap := heapPush it.heap ⟨t, o⟩,
         current_term := it.current_term,
         current_segment_ords := it.current_segment_ords ++ [o] }) := by
  have hg : it.key_streams[o]? = some (it.key_streams.getD o []) := by
    rw [List.getElem?_eq_getElem ho, List.getD_eq_getElem _ _ ho]
  cases hc : it.key_streams.getD o [] with
  | nil =>
      left
      refine ⟨rfl, ?_⟩
      unfold push_next_segment_el
      rw [hc] at hg
      split
      · rename_i term rest hg2
        rw [hg] at hg2
        injection hg2 with hg2
        cases hg2
      · rfl
  | cons t rest =>
      right
      refine ⟨t, rest, rfl, ?_⟩
      unfold push_next_segment_el
      rw [hc] at hg
      split
      · rename_i term2 rest2 hg2
        rw [hg] at hg2
        injection hg2 with hg2
        injection hg2 with hg2a hg2b
        subst hg2a hg2b
        rfl
      · rename_i hg2
        exact absurd hg (hg2 t rest)

theorem remainingOf_buffer_irrelevant (it : TermIterator) (os : List Nat)
    (t : Term) (i : Nat) :
    remainingOf { it with current_term := t, current_segment_ords := os } i =
      remainingOf it i := by
  simp [remainingOf, heapItemOf]

theorem getD_set_ne (l : List (List Term)) {i j : Nat} (a : List Term)
    (h : i ≠ j) : (l.set i a).getD j [] = l.getD j [] := by
  simp [List.getD, List.getElem?_set_ne h]

theorem getD_set_self (l : List (List Term)) {i : Nat} (a : List Term)
    (h : i < l.length) : (l.set i a).getD i [] = a := by
  simp [List.getD, List.getElem?_set_self, h]

/-- The invariant maintained while `TermIterator::new` seeds the heap: after
the ordinals below `k` have been processed, each of them contributed its
stream's head to the heap (unless the stream was empty), the others are
untouched, and every conceptual remaining stream is still the input itself. -/
structure SeedState (ss : List (List Term)) (k : Nat) (it : TermIterator) : Prop where
  len : it.key_streams.length = ss.length
  term0 : it.current_term = []
  ords_buf : it.current_segment_ords = List.range k
  ords_lt : ∀ x ∈ it.heap, x.segment_ord < k
  untouched : ∀ i, k ≤ i → it.key_streams.getD i [] = ss.getD i []
  remainAll : ∀ i, remainingOf it i = ss.getD i []
  nodup : (it.heap.map HeapItem.segment_ord).Nodup
  hsorted : it.heap.Pairwise (fun a b => pairCmp a b = .lt)
  exh : ∀ i < k, (∀ x ∈ it.heap, x.segment_ord ≠ i) → it.key_streams.getD i [] = []
  ssorted : ∀ x ∈ it.heap, sortedBytes (x.term :: it.key_streams.getD x.segment_ord [])

theorem seed_step {ss : List (List Term)} {k : Nat} {it : TermIterator}
    (hst : SeedState ss k it) (hk : k < ss.length)
    (hss : ∀ s ∈ ss, sortedBytes s) :
    SeedState ss (k + 1) (push_next_segment_el it k) := by
  have hkN : k < it.key_streams.length := by rw [hst.len]; exact hk
  have hkey : it.key_streams.getD k [] = ss.getD k [] := hst.untouched k (le_refl k)
  rcases push_cases it k hkN with ⟨hnil, heq⟩ | ⟨t, rest, hcons, heq⟩
  · rw [heq]
    refine ⟨hst.len, hst.term0, ?_, ?_, ?_, ?_, hst.nodup, hst.hsorted, ?_, hst.ssorted⟩
    · rw [hst.ords_buf, List.range_succ]
    · intro x hx
      exact Nat.lt_succ_of_lt (hst.ords_lt x hx)
    · intro i hi
      exact hst.untouched i (Nat.le_of_succ_le hi)
    · intro i
      rw [show remainingOf { it with current_segment_ords := it.current_segment_ords ++ [k] } i
            = remainingOf it i from by simp [remainingOf, heapItemOf]]
      exact hst.remainAll i
    · intro i hi hno
      rcases Nat.lt_succ_iff_lt_or_eq.mp hi with hlt | heqi
      · exact hst.exh i hlt hno
      · subst heqi
        show it.key_streams.getD i [] = []
        exact hnil
  · rw [heq]
    have hfreshb : ∀ z ∈ it.heap, (z.segment_ord == k) = false := by
      intro z hz
      rw [beq_eq_false_iff_ne]
      exact Nat.ne_of_lt (hst.ords_lt z hz)
    have hksorted : sortedBytes (t :: rest) := by
      rw [← hcons, hkey]
      apply hss
      rw [List.getD_eq_getElem _ _ hk]
      exact List.getElem_mem _
    refine ⟨?_, hst.term0, ?_, ?_, ?_, ?_, ?_, ?_, ?_, ?_⟩
    · simp [List.length_set, hst.len]
    · rw [hst.ords_buf, List.range_succ]
    · intro x hx
      rcases mem_heapPush.mp hx with heqx | hx'
      · rw [heqx]
        exact Nat.lt_succ_self k
      · exact Nat.lt_succ_of_lt (hst.ords_lt x hx')
    · intro i hi
      rw [getD_set_ne _ _ (Nat.ne_of_lt (Nat.lt_of_succ_le hi))]
      exact hst.untouched i (Nat.le_of_succ_le hi)
    · intro i
      by_cases hik : i = k
      · subst hik
        have hfind : (heapPush it.heap ⟨t, i⟩).find? (fun x => x.segment_ord == i)
            = some ⟨t, i⟩ := by
          apply find?_heapPush_of_fresh
          · simp
          · exact hfreshb
        rw [remainingOf, heapItemOf]
        simp only [hfind]
        rw [getD_set_self _ _ hkN]
        rw [← hcons, hkey]
      · have hfind : (heapPush it.heap ⟨t, k⟩).find? (fun x => x.segment_ord == i)
            = it.heap.find? (fun x => x.segment_ord == i) := by
          apply find?_heapPush_of_false
          rw [beq_eq_false_iff_ne]
          exact fun hc => hik hc.symm
        rw [remainingOf, heapItemOf]
        simp only [hfind]
        rw [getD_set_ne _ _ (fun hc => hik hc.symm)]
        have := hst.remainAll i
        rw [remainingOf, heapItemOf] at this
        exact this
    · have hperm := (heapPush_perm it.heap ⟨t, k⟩).map HeapItem.segment_ord
      rw [hperm.nodup_iff]
      simp only [List.map_cons, List.nodup_cons]
      refine ⟨?_, hst.nodup⟩
      intro hc
      obtain ⟨z, hz, hzk⟩ := List.mem_map.mp hc
      exact absurd hzk (Nat.ne_of_lt (hst.ords_lt z hz))
    · apply heapPush_sorted hst.hsorted
      intro z hz hc
      have := pairCmp_eq_iff.mp hc
      rw [← this] at hz
      have := hst.ords_lt _ hz
      simp at this
    · intro i hi hno
      rcases Nat.lt_succ_iff_lt_or_eq.mp hi with hlt | heqi
      · have hno' : ∀ x ∈ it.heap, x.segment_ord ≠ i := fun x hx =>
          hno x (mem_heapPush.mpr (Or.inr hx))
        rw [getD_set_ne _ _ (ne_of_gt hlt)]
        exact hst.exh i hlt hno'
      · subst heqi
        exact absurd rfl (hno ⟨t, i⟩ (mem_heapPush.mpr (Or.inl rfl)))
    · intro x hx
      rcases mem_heapPush.mp hx with heqx | hx'
      · subst heqx
        simp only
        rw [getD_set_self _ _ hkN]
        exact hksorted
      · have hne : x.segment_ord ≠ k := Nat.ne_of_lt (hst.ords_lt x hx')
        rw [getD_set_ne _ _ (fun hc => hne hc.symm)]
        exact hst.ssorted x hx'

theorem seed_all (ss : List (List Term)) (hss : ∀ s ∈ ss, sortedBytes s) :
    ∀ k, k ≤ ss.length →
      SeedState ss k ((List.range k).foldl push_next_segment_el
        { key_streams := ss, heap := [], current_term := [],
          current_segment_ords := [] }) := by
  intro k
  induction k with
  | zero =>
      intro _
      refine ⟨rfl, rfl, rfl, ?_, ?_, ?_, ?_, ?_, ?_, ?_⟩
      · intro x hx; cases hx
      · intro i _; rfl
      · intro i; rfl
      · exact List.nodup_nil
      · exact List.Pairwise.nil
      · intro i hi; cases hi
      · intro x hx; cases hx
  | succ k ih =>
      intro hk1
      rw [List.range_succ, List.foldl_append]
      exact seed_step (ih (Nat.le_of_succ_le hk1)) (Nat.lt_of_succ_le hk1) hss

theorem new_seedState (ss : List (List Term)) (hss : ∀ s ∈ ss, sortedBytes s) :
    SeedState ss ss.length (TermIterator.new ss) :=
  seed_all ss hss ss.length (le_refl _)

theorem new_inv (ss : List (List Term)) (hss : ∀ s ∈ ss, sortedBytes s) :
    Inv (TermIterator.new ss) := by
  have h := new_seedState ss hss
  refine ⟨?_, h.nodup, h.hsorted, ?_, h.ssorted⟩
  · intro x hx
    rw [h.len]
    exact h.ords_lt x hx
  · intro i hi
    apply h.exh i
    rw [← h.len]
    exact hi

theorem range_map_getD (ss : List (List Term)) :
    (List.range ss.length).map (fun i => ss.getD i []) = ss := by
  apply List.ext_getElem
  · simp
  · intro i h1 h2
    simp only [List.getElem_map, List.getElem_range]
    rw [List.getD_eq_getElem _ _ h2]

theorem new_remainings (ss : List (List Term)) (hss : ∀ s ∈ ss, sortedBytes s) :
    remainings (TermIterator.new ss) = ss := by
  have h := new_seedState ss hss
  rw [remainings, h.len]
  rw [show (List.range ss.length).map (remainingOf (TermIterator.new ss))
        = (List.range ss.length).map (fun i => ss.getD i []) from ?_]
  · exact range_map_getD ss
  · apply List.map_congr_left
    intro i _
    exact h.remainAll i

theorem drainEqual_eq_nil {it : TermIterator} (h : it.heap = []) :
    drainEqual it = it :=
  drainGo_nil h

theorem drainEqual_eq_stop {it : TermIterator} {x : HeapItem} {xs : List HeapItem}
    (hh : it.heap = x :: xs) (ht : x.term ≠ it.current_term) :
    drainEqual it = it :=
  drainGo_stop hh ht

theorem drainEqual_eq_step {it : TermIterator} {x : HeapItem} {xs : List HeapItem}
    (hh : it.heap = x :: xs) (ht : x.term = it.current_term) :
    drainEqual it =
      drainEqual (push_next_segment_el { it with heap := xs } x.segment_ord) := by
  unfold drainEqual
  have hstep := totalRemaining_step_le hh
  have h1 : totalRemaining it = (totalRemaining it - 1) + 1 := by omega
  rw [h1, drainGo_succ_step hh ht]
  exact drainGo_congr _ _ _ (by omega) (le_refl _)

/-- Popping the heap's front entry and refilling its stream: the conceptual
remaining stream of the popped ordinal loses its front, every other stream is
untouched, the invariant is preserved, and any new heap entry is a strictly
larger term of the popped ordinal's stream. -/
theorem pop_refill_spec (it : TermIterator) (hinv : Inv it) {popped : HeapItem}
    {rest : List HeapItem} (hh : it.heap = popped :: rest) :
    Inv (push_next_segment_el { it with heap := rest } popped.segment_ord) ∧
    (push_next_segment_el { it with heap := rest } popped.segment_ord).current_term
      = it.current_term ∧
    (push_next_segment_el { it with heap := rest } popped.segment_ord).key_streams.length
      = it.key_streams.length ∧
    (push_next_segment_el { it with heap := rest } popped.segment_ord).current_segment_ords
      = it.current_segment_ords ++ [popped.segment_ord] ∧
    (∀ x ∈ (push_next_segment_el { it with heap := rest } popped.segment_ord).heap,
      x ∈ rest ∨ (x.segment_ord = popped.segment_ord ∧ cmpBytes popped.term x.term = .lt)) ∧
    (push_next_segment_el { it with heap := rest } popped.segment_ord).heap.takeWhile
        (fun z => z.term == popped.term)
      = rest.takeWhile (fun z => z.term == popped.term) ∧
    remainingOf (push_next_segment_el { it with heap := rest } popped.segment_ord)
        popped.segment_ord
      = (remainingOf it popped.segment_ord).tail ∧
    (∀ j, j ≠ popped.segment_ord →
      remainingOf (push_next_segment_el { it with heap := rest } popped.segment_ord) j
        = remainingOf it j) := by
  have hpm : popped ∈ it.heap := by rw [hh]; exact List.mem_cons_self _ _
  have ho : popped.segment_ord < it.key_streams.length := hinv.ords_lt popped hpm
  have hrestlt : ∀ x ∈ rest, x.segment_ord < it.key_streams.length := by
    intro x hx
    exact hinv.ords_lt x (by rw [hh]; exact List.mem_cons_of_mem _ hx)
  have hnodup := hinv.ords_nodup
  rw [hh, List.map_cons, List.nodup_cons] at hnodup
  obtain ⟨hnotin, hrestnodup⟩ := hnodup
  have hsorted := hinv.heap_sorted
  rw [hh, List.pairwise_cons] at hsorted
  obtain ⟨hheadlt, hrestsorted⟩ := hsorted
  have hstream : sortedBytes
      (popped.term :: it.key_streams.getD popped.segment_ord []) :=
    hinv.streams_sorted popped hpm
  have hfreshb : ∀ z ∈ rest, (z.segment_ord == popped.segment_ord) = false := by
    intro z hz
    rw [beq_eq_false_iff_ne]
    intro hc
    exact hnotin (hc ▸ List.mem_map_of_mem HeapItem.segment_ord hz)
  have hitemo : heapItemOf it popped.segment_ord = some popped := by
    rw [heapItemOf, hh]
    apply List.find?_cons_of_pos
    simp
  have hremo : remainingOf it popped.segment_ord
      = popped.term :: it.key_streams.getD popped.segment_ord [] := by
    rw [remainingOf, hitemo]
  have hitemj : ∀ j, j ≠ popped.segment_ord →
      heapItemOf it j = rest.find? (fun x => x.segment_ord == j) := by
    intro j hj
    rw [heapItemOf, hh]
    apply List.find?_cons_of_neg
    simp
    exact fun hc => hj hc.symm
  have hoN : popped.segment_ord <
      (TermIterator.mk it.key_streams rest it.current_term
        it.current_segment_ords).key_streams.length := ho
  rcases push_cases { it with heap := rest } popped.segment_ord hoN with
    ⟨hnil, heqp⟩ | ⟨t, ks, hcons, heqp⟩
  · -- the popped stream is exhausted: no refill
    rw [heqp]
    have hks : it.key_streams.getD popped.segment_ord [] = [] := hnil
    refine ⟨?_, rfl, rfl, rfl, ?_, rfl, ?_, ?_⟩
    · refine ⟨?_, hrestnodup, hrestsorted, ?_, ?_⟩
      · intro x hx
        exact hrestlt x hx
      · intro i hi hno
        by_cases hio : i = popped.segment_ord
        · subst hio
          exact hks
        · apply hinv.exhausted_nil i hi
          intro x hx
          rw [hh] at hx
          rcases List.mem_cons.mp hx with heqx | hx'
          · subst heqx
            exact fun hc => hio hc.symm
          · exact hno x hx'
      · intro x hx
        exact hinv.streams_sorted x (by rw [hh]; exact List.mem_cons_of_mem _ hx)
    · intro x hx
      exact Or.inl hx
    · rw [hremo]
      rw [remainingOf, heapItemOf]
      simp only
      rw [List.find?_eq_none.mpr ?_]
      · rw [hks]
        rfl
      · intro x hx
        simp only [beq_iff_eq]
        intro hc
        rw [← hc] at hfreshb
        have := hfreshb x hx
        simp at this
    · intro j hj
      rw [remainingOf, heapItemOf]
      simp only
      rw [remainingOf, hitemj j hj]
  · -- refill: the stream's next term enters the heap
    rw [heqp]
    have hks : it.key_streams.getD popped.segment_ord [] = t :: ks := hcons
    rw [hks] at hstream
    have hmt : cmpBytes popped.term t = .lt := by
      have := sorted_head_lt hstream t (List.mem_cons_self t ks)
      exact this
    have htks : sortedBytes (t :: ks) := hstream.tail
    refine ⟨?_, rfl, by simp [List.length_set], rfl, ?_, ?_, ?_, ?_⟩
    · refine ⟨?_, ?_, ?_, ?_, ?_⟩
      · intro x hx
        rcases mem_heapPush.mp hx with heqx | hx'
        · subst heqx
          simp [List.length_set]
          exact ho
        · simp [List.length_set]
          exact hrestlt x hx'
      · have hperm := (heapPush_perm rest ⟨t, popped.segment_ord⟩).map HeapItem.segment_ord
        rw [hperm.nodup_iff]
        simp only [List.map_cons, List.nodup_cons]
        exact ⟨hnotin, hrestnodup⟩
      · apply heapPush_sorted hrestsorted
        intro z hz hc
        have hzeq := pairCmp_eq_iff.mp hc
        have := hfreshb z hz
        rw [← hzeq] at this
        simp at this
      · intro i hi hno
        simp only [List.length_set] at hi
        have hio : i ≠ popped.segment_ord := by
          intro hc
          subst hc
          exact hno ⟨t, popped.segment_ord⟩ (mem_heapPush.mpr (Or.inl rfl)) rfl
        rw [getD_set_ne _ _ (fun hc => hio hc.symm)]
        apply hinv.exhausted_nil i hi
        intro x hx
        rw [hh] at hx
        rcases List.mem_cons.mp hx with heqx | hx'
        · subst heqx
          exact fun hc => hio hc.symm
        · exact hno x (mem_heapPush.mpr (Or.inr hx'))
      · intro x hx
        rcases mem_heapPush.mp hx with heqx | hx'
        · subst heqx
          simp only
          rw [getD_set_self _ _ ho]
          exact htks
        · have hne : x.segment_ord ≠ popped.segment_ord := by
            have := hfreshb x hx'
            rw [beq_eq_false_iff_ne] at this
            exact this
          rw [getD_set_ne _ _ (fun hc => hne hc.symm)]
          exact hinv.streams_sorted x (by rw [hh]; exact List.mem_cons_of_mem _ hx')
    · intro x hx
      rcases mem_heapPush.mp hx with heqx | hx'
      · subst heqx
        exact Or.inr ⟨rfl, hmt⟩
      · exact Or.inl hx'
    · exact heapPush_takeWhile_gt hmt
    · rw [hremo, hks]
      rw [remainingOf, heapItemOf]
      simp only
      rw [find?_heapPush_of_fresh (by simp) hfreshb]
      rw [getD_set_self _ _ ho]
      rfl
    · intro j hj
      rw [remainingOf, heapItemOf]
      simp only
      rw [find?_heapPush_of_false (by
        rw [beq_eq_false_iff_ne]
        exact fun hc => hj hc.symm)]
      rw [getD_set_ne _ _ (fun hc => hj hc.symm)]
      rw [remainingOf, hitemj j hj]

/-- What the drain loop of `next` does: it pops exactly the maximal group of
heap entries whose term equals `current_term` (a front segment of the sorted
heap), appends their ordinals to the buffer in heap order, advances each of
their streams by one, and leaves every heap term strictly above
`current_term`. -/
theorem drain_spec (it : TermIterator) :
    Inv it →
    (∀ x ∈ it.heap, x.term = it.current_term ∨
      cmpBytes it.current_term x.term = .lt) →
    Inv (drainEqual it) ∧
    (drainEqual it).current_term = it.current_term ∧
    (drainEqual it).key_streams.length = it.key_streams.length ∧
    (∀ x ∈ (drainEqual it).heap, cmpBytes it.current_term x.term = .lt) ∧
    (drainEqual it).current_segment_ords =
      it.current_segment_ords ++
        (it.heap.takeWhile (fun z => z.term == it.current_term)).map
          HeapItem.segment_ord ∧
    (∀ i, remainingOf (drainEqual it) i =
      if i ∈ (it.heap.takeWhile (fun z => z.term == it.current_term)).map
          HeapItem.segment_ord
        then (remainingOf it i).tail else remainingOf it i) := by
  have main : ∀ (n : Nat) (it : TermIterator), totalRemaining it ≤ n →
      Inv it →
      (∀ x ∈ it.heap, x.term = it.current_term ∨
        cmpBytes it.current_term x.term = .lt) →
      Inv (drainEqual it) ∧
      (drainEqual it).current_term = it.current_term ∧
      (drainEqual it).key_streams.length = it.key_streams.length ∧
      (∀ x ∈ (drainEqual it).heap, cmpBytes it.current_term x.term = .lt) ∧
      (drainEqual it).current_segment_ords =
        it.current_segment_ords ++
          (it.heap.takeWhile (fun z => z.term == it.current_term)).map
            HeapItem.segment_ord ∧
      (∀ i, remainingOf (drainEqual it) i =
        if i ∈ (it.heap.takeWhile (fun z => z.term == it.current_term)).map
            HeapItem.segment_ord
          then (remainingOf it i).tail else remainingOf it i) := by
    intro n
    induction n with
    | zero =>
        intro it hn hinv hlb
        have hnil : it.heap = [] := by
          rw [Nat.le_zero] at hn
          unfold totalRemaining at hn
          have : it.heap.length = 0 := by omega
          exact List.eq_nil_of_length_eq_zero this
        rw [drainEqual_eq_nil hnil]
        refine ⟨hinv, rfl, rfl, ?_, ?_, ?_⟩
        · intro x hx
          rw [hnil] at hx
          cases hx
        · rw [hnil]
          simp
        · intro i
          rw [hnil]
          simp
    | succ n ih =>
        intro it hn hinv hlb
        cases hh : it.heap with
        | nil =>
            rw [drainEqual_eq_nil hh]
            refine ⟨hinv, rfl, rfl, ?_, ?_, ?_⟩
            · intro x hx
              rw [hh] at hx
              cases hx
            · simp
            · intro i
              simp
        | cons popped rest =>
            by_cases heq : popped.term = it.current_term
            · have hnotin : popped.segment_ord ∉
                  List.map HeapItem.segment_ord rest := by
                have := hinv.ords_nodup
                rw [hh, List.map_cons, List.nodup_cons] at this
                exact this.1
              obtain ⟨Hinv2, Hterm2, Hlen2, Hords2, Hheap2, Htake2, Hremo2, Hremj2⟩ :=
                pop_refill_spec it hinv hh
              rw [heq] at Htake2
              have hlb2 : ∀ x ∈ (push_next_segment_el { it with heap := rest }
                  popped.segment_ord).heap,
                  x.term = (push_next_segment_el { it with heap := rest }
                    popped.segment_ord).current_term ∨
                  cmpBytes (push_next_segment_el { it with heap := rest }
                    popped.segment_ord).current_term x.term = .lt := by
                intro x hx
                rw [Hterm2]
                rcases Hheap2 x hx with hx' | ⟨_, hgt⟩
                · exact hlb x (by rw [hh]; exact List.mem_cons_of_mem _ hx')
                · right
                  rw [← heq]
                  exact hgt
              have hbound : totalRemaining (push_next_segment_el
                  { it with heap := rest } popped.segment_ord) ≤ n := by
                have := totalRemaining_step_le hh
                omega
              obtain ⟨IH1, IH2, IH3, IH4, IH5, IH6⟩ := ih _ hbound Hinv2 hlb2
              have heqd := drainEqual_eq_step hh heq
              have hTW : List.takeWhile (fun z => z.term == it.current_term)
                  (popped :: rest)
                  = popped :: rest.takeWhile (fun z => z.term == it.current_term) := by
                apply List.takeWhile_cons_of_pos
                simp [heq]
              have hno2 : popped.segment_ord ∉
                  (rest.takeWhile (fun z => z.term == it.current_term)).map
                    HeapItem.segment_ord := by
                intro hc
                apply hnotin
                obtain ⟨z, hz, hzo⟩ := List.mem_map.mp hc
                exact hzo ▸ List.mem_map_of_mem _ ((List.takeWhile_sublist _).mem hz)
              refine ⟨?_, ?_, ?_, ?_, ?_, ?_⟩
              · rw [heqd]; exact IH1
              · rw [heqd, IH2, Hterm2]
              · rw [heqd, IH3, Hlen2]
              · intro x hx
                rw [heqd] at hx
                have := IH4 x hx
                rw [Hterm2] at this
                exact this
              · rw [heqd, IH5, Hterm2, Htake2, Hords2, hTW]
                simp [List.append_assoc]
              · intro i
                rw [heqd, IH6 i, Hterm2, Htake2, hTW]
                by_cases hio : i = popped.segment_ord
                · subst hio
                  rw [if_neg hno2, if_pos (by simp)]
                  rw [Hremo2]
                · have hmem : i ∈ (popped :: rest.takeWhile
                      (fun z => z.term == it.current_term)).map HeapItem.segment_ord ↔
                      i ∈ (rest.takeWhile
                        (fun z => z.term == it.current_term)).map
                          HeapItem.segment_ord := by
                    simp only [List.map_cons, List.mem_cons]
                    constructor
                    · rintro (hc | hc)
                      · exact absurd hc hio
                      · exact hc
                    · exact Or.inr
                  rw [Hremj2 i hio]
                  by_cases hin : i ∈ (rest.takeWhile
                      (fun z => z.term == it.current_term)).map HeapItem.segment_ord
                  · rw [if_pos hin, if_pos (hmem.mpr hin)]
                  · rw [if_neg hin, if_neg (fun hc => hin (hmem.mp hc))]
            · have hstrict : ∀ x ∈ it.heap,
                  cmpBytes it.current_term x.term = .lt := by
                have hzlt : cmpBytes it.current_term popped.term = .lt := by
                  rcases hlb popped (by rw [hh]; exact List.mem_cons_self _ _)
                    with hc | hc
                  · exact absurd hc heq
                  · exact hc
                intro x hx
                rw [hh] at hx
                rcases List.mem_cons.mp hx with heqx | hx'
                · subst heqx; exact hzlt
                · have hsorted := hinv.heap_sorted
                  rw [hh, List.pairwise_cons] at hsorted
                  have hpc : pairCmp popped x = .lt := hsorted.1 x hx'
                  have hterm : cmpBytes popped.term x.term ≠ .gt :=
                    pairCmp_term_ne_gt (by rw [hpc]; intro hc; cases hc)
                  exact cmpBytes_lt_of_lt_of_ne_gt hzlt hterm
              have hTW : (popped :: rest).takeWhile
                  (fun w => w.term == it.current_term) = [] := by
                apply List.takeWhile_cons_of_neg
                simp [heq]
              rw [drainEqual_eq_stop hh heq]
              refine ⟨hinv, rfl, rfl, hstrict, ?_, ?_⟩
              · rw [hTW]
                simp
              · intro i
                rw [hTW]
                simp
  exact main (totalRemaining it) it (le_refl _)

theorem sorted_ext {l₁ l₂ : List Nat} (h₁ : l₁.Pairwise (· < ·))
    (h₂ : l₂.Pairwise (· < ·)) (h : ∀ i, i ∈ l₁ ↔ i ∈ l₂) : l₁ = l₂ := by
  have hn₁ : l₁.Nodup := h₁.imp Nat.ne_of_lt
  have hn₂ : l₂.Nodup := h₂.imp Nat.ne_of_lt
  have hperm : List.Perm l₁ l₂ := (List.perm_ext_iff_of_nodup hn₁ hn₂).mpr h
  exact List.eq_of_perm_of_sorted hperm (h₁.imp le_of_lt) (h₂.imp le_of_lt)

theorem takeWhile_term_mem {h : List HeapItem} {m : Term}
    (hsorted : h.Pairwise (fun a b => pairCmp a b = .lt))
    (hge : ∀ z ∈ h, z.term = m ∨ cmpBytes m z.term = .lt) :
    ∀ z ∈ h, z.term = m → z ∈ h.takeWhile (fun w => w.term == m) := by
  induction h with
  | nil => intro z hz; cases hz
  | cons r rs ih =>
      intro z hz hzm
      by_cases hrm : r.term = m
      · rw [List.takeWhile_cons_of_pos (by simp [hrm])]
        rcases List.mem_cons.mp hz with heqz | hz'
        · subst heqz
          exact List.mem_cons_self _ _
        · rw [List.pairwise_cons] at hsorted
          exact List.mem_cons_of_mem _
            (ih hsorted.2 (fun w hw => hge w (List.mem_cons_of_mem _ hw)) z hz' hzm)
      · exfalso
        have hrgt : cmpBytes m r.term = .lt := by
          rcases hge r (List.mem_cons_self _ _) with hc | hc
          · exact absurd hc hrm
          · exact hc
        rcases List.mem_cons.mp hz with heqz | hz'
        · subst heqz
          exact hrm hzm
        · rw [List.pairwise_cons] at hsorted
          have hpc := hsorted.1 z hz'
          have : cmpBytes r.term z.term ≠ .gt :=
            pairCmp_term_ne_gt (by rw [hpc]; intro hc; cases hc)
          have : cmpBytes m z.term = .lt :=
            cmpBytes_lt_of_lt_of_ne_gt hrgt this
          rw [hzm] at this
          exact cmpBytes_lt_irrefl m this

theorem heapItemOf_mem {it : TermIterator} {i : Nat} {z : HeapItem}
    (hf : heapItemOf it i = some z) : z ∈ it.heap ∧ z.segment_ord = i := by
  refine ⟨List.mem_of_find?_eq_some hf, ?_⟩
  have := List.find?_some hf
  simpa using this

theorem heapItemOf_of_mem {it : TermIterator} (hinv : Inv it) {z : HeapItem}
    (hz : z ∈ it.heap) : heapItemOf it z.segment_ord = some z := by
  cases hf : heapItemOf it z.segment_ord with
  | none =>
      rw [heapItemOf, List.find?_eq_none] at hf
      have := hf z hz
      simp at this
  | some w =>
      obtain ⟨hwmem, hword⟩ := heapItemOf_mem hf
      have : w = z :=
        List.inj_on_of_nodup_map hinv.ords_nodup hwmem hz (by rw [hword])
      rw [this]

theorem remainingOf_head (it : TermIterator) (hinv : Inv it) (i : Nat)
    (hi : i < it.key_streams.length) :
    (remainingOf it i).head? = (heapItemOf it i).map HeapItem.term := by
  cases hf : heapItemOf it i with
  | some z => rw [remainingOf, hf]; rfl
  | none =>
      rw [remainingOf, hf]
      simp only [Option.map_none']
      rw [hinv.exhausted_nil i hi ?_]
      · rfl
      · intro x hx hc
        rw [heapItemOf, List.find?_eq_none] at hf
        have := hf x hx
        simp [hc] at this

/-- The ordinals collected by one `next` call — the popped entry's ordinal
followed by the drained group's — are exactly the ordinals of the streams
whose remaining sequence starts with the popped term, in ascending order. -/
theorem contribs_eq (it : TermIterator) (hinv : Inv it) {x : HeapItem}
    {hrest : List HeapItem} (hh : it.heap = x :: hrest) :
    x.segment_ord ::
        (hrest.takeWhile (fun z => z.term == x.term)).map HeapItem.segment_ord
      = (List.range it.key_streams.length).filter
          (fun i => decide ((remainingOf it i).head? = some x.term)) := by
  have hxmem : x ∈ it.heap := by rw [hh]; exact List.mem_cons_self _ _
  have hsorted := hinv.heap_sorted
  rw [hh, List.pairwise_cons] at hsorted
  obtain ⟨hheadlt, hrestsorted⟩ := hsorted
  have htwsub : ∀ z ∈ hrest.takeWhile (fun w => w.term == x.term), z ∈ hrest :=
    fun z hz => (List.takeWhile_sublist _).mem hz
  have htwterm : ∀ z ∈ hrest.takeWhile (fun w => w.term == x.term),
      z.term = x.term := by
    intro z hz
    have := List.mem_takeWhile_imp hz
    simpa using this
  apply sorted_ext
  · rw [List.pairwise_cons]
    constructor
    · intro o ho
      obtain ⟨z, hz, rfl⟩ := List.mem_map.mp ho
      exact pairCmp_lt_ord (hheadlt z (htwsub z hz)) (htwterm z hz).symm
    · rw [List.pairwise_map]
      have htws : (hrest.takeWhile (fun w => w.term == x.term)).Pairwise
          (fun a b => pairCmp a b = .lt) :=
        hrestsorted.sublist (List.takeWhile_sublist _)
      apply List.Pairwise.imp_of_mem ?_ htws
      intro a b ha hb hab
      exact pairCmp_lt_ord hab ((htwterm a ha).trans (htwterm b hb).symm)
  · exact (List.pairwise_lt_range _).sublist (List.filter_sublist _)
  · intro i
    simp only [List.mem_cons, List.mem_filter, List.mem_range,
      decide_eq_true_eq]
    constructor
    · rintro (heqi | hin)
      · subst heqi
        refine ⟨hinv.ords_lt x hxmem, ?_⟩
        rw [remainingOf_head it hinv _ (hinv.ords_lt x hxmem)]
        rw [heapItemOf_of_mem hinv hxmem]
        rfl
      · obtain ⟨z, hz, rfl⟩ := List.mem_map.mp hin
        have hzmem : z ∈ it.heap := by
          rw [hh]
          exact List.mem_cons_of_mem _ (htwsub z hz)
        refine ⟨hinv.ords_lt z hzmem, ?_⟩
        rw [remainingOf_head it hinv _ (hinv.ords_lt z hzmem)]
        rw [heapItemOf_of_mem hinv hzmem]
        rw [Option.map_some']
        rw [htwterm z hz]
    · rintro ⟨hiN, hhead⟩
      rw [remainingOf_head it hinv i hiN] at hhead
      cases hf : heapItemOf it i with
      | none => rw [hf] at hhead; cases hhead
      | some z =>
          rw [hf, Option.map_some'] at hhead
          injection hhead with hhead
          obtain ⟨hzmem, hzord⟩ := heapItemOf_mem hf
          rw [hh] at hzmem
          rcases List.mem_cons.mp hzmem with heqz | hz'
          · left
            rw [← hzord, heqz]
          · right
            rw [← hzord]
            apply List.mem_map_of_mem
            apply takeWhile_term_mem hrestsorted ?_ z hz' hhead
            intro w hw
            have hpc := hheadlt w hw
            have hwge : cmpBytes x.term w.term ≠ .gt :=
              pairCmp_term_ne_gt (by rw [hpc]; intro hc; cases hc)
            rcases hc : cmpBytes x.term w.term with h' | h' | h'
            · right; rfl
            · left; exact (cmpBytes_eq_iff.mp hc).symm
            · exact absurd hc hwge

theorem next_eq_none {it : TermIterator} (h : it.heap = []) :
    it.next = (none, { it with current_segment_ords := [] }) := by
  simp only [TermIterator.next, h, heapPop]

/-- One successful `next` call on an invariant-satisfying state: it yields the
front entry's term together with the ascending list of ordinals of all streams
whose remaining sequence starts with that term, advances exactly those streams
by one element, and re-establishes the invariant with every heap term now
strictly greater than the yielded term. -/
theorem next_spec (it : TermIterator) (hinv : Inv it) {x : HeapItem}
    {hrest : List HeapItem} (hh : it.heap = x :: hrest) :
    (it.next).1 = some (x.term,
      (List.range it.key_streams.length).filter
        (fun i => decide ((remainingOf it i).head? = some x.term))) ∧
    Inv (it.next).2 ∧
    (it.next).2.current_term = x.term ∧
    (it.next).2.key_streams.length = it.key_streams.length ∧
    (∀ y ∈ (it.next).2.heap, cmpBytes x.term y.term = .lt) ∧
    (∀ i, remainingOf (it.next).2 i =
      if (remainingOf it i).head? = some x.term then (remainingOf it i).tail
      else remainingOf it i) := by
  have hinvS : Inv (⟨it.key_streams, x :: hrest, x.term, []⟩ : TermIterator) := by
    obtain ⟨h1, h2, h3, h4, h5⟩ := hinv
    rw [hh] at h1 h2 h3 h4 h5
    exact ⟨h1, h2, h3, h4, h5⟩
  have hsorted := hinv.heap_sorted
  rw [hh, List.pairwise_cons] at hsorted
  obtain ⟨hheadlt, hrestsorted⟩ := hsorted
  have hremS : ∀ i, remainingOf it i =
      remainingOf (⟨it.key_streams, x :: hrest, x.term, []⟩ : TermIterator) i := by
    intro i
    rw [remainingOf, remainingOf, heapItemOf, heapItemOf, hh]
  obtain ⟨P1, P2, P3, P4, P5, P6, P7, P8⟩ :=
    pop_refill_spec (⟨it.key_streams, x :: hrest, x.term, []⟩ : TermIterator)
      hinvS rfl
  have Q1 : Inv (push_next_segment_el
      (⟨it.key_streams, hrest, x.term, []⟩ : TermIterator) x.segment_ord) := P1
  have Q2 : (push_next_segment_el
      (⟨it.key_streams, hrest, x.term, []⟩ : TermIterator)
        x.segment_ord).current_term = x.term := P2
  have Q3 : (push_next_segment_el
      (⟨it.key_streams, hrest, x.term, []⟩ : TermIterator)
        x.segment_ord).key_streams.length = it.key_streams.length := P3
  have Q4 : (push_next_segment_el
      (⟨it.key_streams, hrest, x.term, []⟩ : TermIterator)
        x.segment_ord).current_segment_ords = [x.segment_ord] := P4
  have Q5 : ∀ y ∈ (push_next_segment_el
      (⟨it.key_streams, hrest, x.term, []⟩ : TermIterator) x.segment_ord).heap,
      y ∈ hrest ∨
        (y.segment_ord = x.segment_ord ∧ cmpBytes x.term y.term = .lt) := P5
  have Q6 : (push_next_segment_el
      (⟨it.key_streams, hrest, x.term, []⟩ : TermIterator)
        x.segment_ord).heap.takeWhile (fun z => z.term == x.term)
      = hrest.takeWhile (fun z => z.term == x.term) := P6
  have Q7 : remainingOf (push_next_segment_el
      (⟨it.key_streams, hrest, x.term, []⟩ : TermIterator) x.segment_ord)
        x.segment_ord = (remainingOf it x.segment_ord).tail := by
    rw [hremS x.segment_ord]
    exact P7
  have Q8 : ∀ j, j ≠ x.segment_ord →
      remainingOf (push_next_segment_el
        (⟨it.key_streams, hrest, x.term, []⟩ : TermIterator) x.segment_ord) j
      = remainingOf it j := by
    intro j hj
    rw [hremS j]
    exact P8 j hj
  have hlb2 : ∀ y ∈ (push_next_segment_el
      (⟨it.key_streams, hrest, x.term, []⟩ : TermIterator) x.segment_ord).heap,
      y.term = (push_next_segment_el
        (⟨it.key_streams, hrest, x.term, []⟩ : TermIterator)
          x.segment_ord).current_term ∨
      cmpBytes (push_next_segment_el
        (⟨it.key_streams, hrest, x.term, []⟩ : TermIterator)
          x.segment_ord).current_term y.term = .lt := by
    intro y hy
    rw [Q2]
    rcases Q5 y hy with hy' | ⟨_, hgt⟩
    · have hpc := hheadlt y hy'
      have hterm : cmpBytes x.term y.term ≠ .gt :=
        pairCmp_term_ne_gt (by rw [hpc]; intro hc; cases hc)
      rcases hc : cmpBytes x.term y.term with h' | h' | h'
      · right; rfl
      · left; exact (cmpBytes_eq_iff.mp hc).symm
      · exact absurd hc hterm
    · right; exact hgt
  obtain ⟨D1, D2, D3, D4, D5, D6⟩ := drain_spec _ Q1 hlb2
  rw [Q2] at D2 D4 D5 D6
  rw [Q6] at D5 D6
  rw [Q3] at D3
  rw [Q4] at D5
  have hnext : it.next = (some ((drainEqual (push_next_segment_el
      (⟨it.key_streams, hrest, x.term, []⟩ : TermIterator)
        x.segment_ord)).current_term,
      (drainEqual (push_next_segment_el
        (⟨it.key_streams, hrest, x.term, []⟩ : TermIterator)
          x.segment_ord)).current_segment_ords),
      drainEqual (push_next_segment_el
        (⟨it.key_streams, hrest, x.term, []⟩ : TermIterator) x.segment_ord)) := by
    simp only [TermIterator.next, hh, heapPop]
  have hnotin : x.segment_ord ∉ List.map HeapItem.segment_ord hrest := by
    have := hinv.ords_nodup
    rw [hh, List.map_cons, List.nodup_cons] at this
    exact this.1
  have hno2 : x.segment_ord ∉
      (hrest.takeWhile (fun z => z.term == x.term)).map HeapItem.segment_ord := by
    intro hc
    apply hnotin
    obtain ⟨z, hz, hzo⟩ := List.mem_map.mp hc
    exact hzo ▸ List.mem_map_of_mem _ ((List.takeWhile_sublist _).mem hz)
  have hcond : ∀ i, ((remainingOf it i).head? = some x.term) ↔
      i ∈ x.segment_ord ::
        (hrest.takeWhile (fun z => z.term == x.term)).map HeapItem.segment_ord := by
    intro i
    rw [contribs_eq it hinv hh]
    simp only [List.mem_filter, List.mem_range, decide_eq_true_eq]
    constructor
    · intro hhead
      refine ⟨?_, hhead⟩
      by_contra hiN
      push_neg at hiN
      have hfind : heapItemOf it i = none := by
        rw [heapItemOf, List.find?_eq_none]
        intro z hz
        simp only [beq_iff_eq]
        intro hc
        have := hinv.ords_lt z hz
        omega
      rw [remainingOf, hfind, List.getD_eq_default _ _ hiN] at hhead
      cases hhead
    · exact fun h => h.2
  refine ⟨?_, ?_, ?_, ?_, ?_, ?_⟩
  · rw [hnext]
    simp only
    rw [D2, D5]
    rw [← contribs_eq it hinv hh]
    rfl
  · rw [hnext]
    exact D1
  · rw [hnext]
    exact D2
  · rw [hnext]
    exact D3
  · rw [hnext]
    exact D4
  · intro i
    rw [hnext]
    simp only
    rw [D6 i]
    by_cases hio : i = x.segment_ord
    · subst hio
      rw [if_neg hno2, Q7]
      rw [if_pos ((hcond x.segment_ord).mpr (List.mem_cons_self _ _))]
    · rw [Q8 i hio]
      by_cases hin : i ∈
          (hrest.takeWhile (fun z => z.term == x.term)).map HeapItem.segment_ord
      · rw [if_pos hin,
          if_pos ((hcond i).mpr (List.mem_cons_of_mem _ hin))]
      · rw [if_neg hin, if_neg ?_]
        intro hc
        rcases List.mem_cons.mp ((hcond i).mp hc) with heqi | hini
        · exact hio heqi
        · exact hin hini

theorem runAll_eq_cons {it : TermIterator} {out : Term × List Nat}
    {it' : TermIterator} (h : it.next = (some out, it')) :
    runAll it = out :: runAll it' := by
  rw [runAll]
  split
  · rename_i out2 it2 h2
    rw [h] at h2
    injection h2 with h2a h2b
    injection h2a with h2a
    subst h2a h2b
    rfl
  · rename_i h2
    rw [h] at h2
    injection h2 with h2a h2b
    cases h2a

theorem runAll_eq_nil {it : TermIterator} {it' : TermIterator}
    (h : it.next = (none, it')) : runAll it = [] := by
  rw [runAll]
  split
  · rename_i out2 it2 h2
    rw [h] at h2
    injection h2 with h2a h2b
    cases h2a
  · rfl

theorem remainings_length (it : TermIterator) :
    (remainings it).length = it.key_streams.length := by
  simp [remainings]

theorem remainings_getD (it : TermIterator) {i : Nat}
    (hi : i < it.key_streams.length) :
    (remainings it).getD i [] = remainingOf it i := by
  rw [List.getD_eq_getElem?_getD, remainings, List.getElem?_map,
    List.getElem?_range hi]
  rfl

theorem remainings_sorted (it : TermIterator) (hinv : Inv it) :
    ∀ s ∈ remainings it, sortedBytes s := by
  intro s hs
  obtain ⟨i, hi, rfl⟩ := List.mem_map.mp hs
  cases hf : heapItemOf it i with
  | some z =>
      obtain ⟨hzmem, hzord⟩ := heapItemOf_mem hf
      rw [remainingOf, hf]
      have := hinv.streams_sorted z hzmem
      rw [hzord] at this
      exact this
  | none =>
      rw [remainingOf, hf]
      rw [List.mem_range] at hi
      rw [hinv.exhausted_nil i hi ?_]
      · exact List.Pairwise.nil
      · intro z hz hc
        rw [heapItemOf, List.find?_eq_none] at hf
        have := hf z hz
        simp [hc] at this

theorem headsMin_remainings (it : TermIterator) (hinv : Inv it) {x : HeapItem}
    {hrest : List HeapItem} (hh : it.heap = x :: hrest) :
    headsMin (remainings it) = some x.term := by
  have hxmem : x ∈ it.heap := by rw [hh]; exact List.mem_cons_self _ _
  have hxN : x.segment_ord < it.key_streams.length := hinv.ords_lt x hxmem
  apply headsMin_unique
  · refine ⟨remainingOf it x.segment_ord, ?_, ?_⟩
    · rw [remainings]
      exact List.mem_map_of_mem _ (List.mem_range.mpr hxN)
    · rw [remainingOf_head it hinv _ hxN, heapItemOf_of_mem hinv hxmem]
      rfl
  · intro s hs t ht
    obtain ⟨i, hi, rfl⟩ := List.mem_map.mp hs
    rw [List.mem_range] at hi
    rw [remainingOf_head it hinv i hi] at ht
    cases hf : heapItemOf it i with
    | none => rw [hf] at ht; cases ht
    | some z =>
        rw [hf, Option.map_some'] at ht
        injection ht with ht
        obtain ⟨hzmem, _⟩ := heapItemOf_mem hf
        rw [hh] at hzmem
        rcases List.mem_cons.mp hzmem with heqz | hz'
        · subst heqz
          rw [← ht, cmpBytes_refl]
          intro hc; cases hc
        · have hsorted := hinv.heap_sorted
          rw [hh, List.pairwise_cons] at hsorted
          have hpc := hsorted.1 z hz'
          rw [← ht]
          exact pairCmp_term_ne_gt (by rw [hpc]; intro hc; cases hc)

theorem remainings_next (it : TermIterator) (hinv : Inv it) {x : HeapItem}
    {hrest : List HeapItem} (hh : it.heap = x :: hrest) :
    remainings (it.next).2 = dropHeadsEq x.term (remainings it) := by
  obtain ⟨_, _, _, hlen, _, hrem⟩ := next_spec it hinv hh
  rw [remainings, remainings, hlen, dropHeadsEq, List.map_map]
  apply List.map_congr_left
  intro i hi
  rw [List.mem_range] at hi
  simp only [Function.comp]
  rw [hrem i]

/-- Running the iterator to exhaustion from any invariant-satisfying state
computes exactly the specification merge of its remaining streams. -/
theorem runAll_eq_mergeSpec :
    ∀ n (it : TermIterator), totalRemaining it ≤ n → Inv it →
      runAll it = mergeSpec (remainings it) := by
  intro n
  induction n with
  | zero =>
      intro it hn hinv
      cases hh : it.heap with
      | nil =>
          rw [runAll_eq_nil (next_eq_none hh)]
          rw [mergeSpec_eq_nil]
          rw [headsMin_none_iff]
          intro s hs
          obtain ⟨i, hi, rfl⟩ := List.mem_map.mp hs
          rw [List.mem_range] at hi
          have hf : heapItemOf it i = none := by
            rw [heapItemOf, hh]
            rfl
          rw [remainingOf, hf]
          apply hinv.exhausted_nil i hi
          intro z hz
          rw [hh] at hz
          cases hz
      | cons x hrest =>
          exfalso
          rw [totalRemaining, hh] at hn
          simp at hn
  | succ n ih =>
      intro it hn hinv
      cases hh : it.heap with
      | nil =>
          rw [runAll_eq_nil (next_eq_none hh)]
          rw [mergeSpec_eq_nil]
          rw [headsMin_none_iff]
          intro s hs
          obtain ⟨i, hi, rfl⟩ := List.mem_map.mp hs
          rw [List.mem_range] at hi
          have hf : heapItemOf it i = none := by
            rw [heapItemOf, hh]
            rfl
          rw [remainingOf, hf]
          apply hinv.exhausted_nil i hi
          intro z hz
          rw [hh] at hz
          cases hz
      | cons x hrest =>
          obtain ⟨h1, h2, _, _, _, _⟩ := next_spec it hinv hh
          have hpair : it.next = ((it.next).1, (it.next).2) := rfl
          rw [h1] at hpair
          rw [runAll_eq_cons hpair]
          rw [mergeSpec_eq_cons (headsMin_remainings it hinv hh)]
          have hlen : (remainings it).length = it.key_streams.length :=
            remainings_length it
          have hfilter :
              (List.range (remainings it).length).filter
                  (fun i => decide (((remainings it).getD i []).head? = some x.term))
                = (List.range it.key_streams.length).filter
                  (fun i => decide ((remainingOf it i).head? = some x.term)) := by
            rw [hlen]
            apply List.filter_congr
            intro i hi
            rw [List.mem_range] at hi
            rw [remainings_getD it hi]
          rw [hfilter]
          have htail : runAll (it.next).2 = mergeSpec (remainings (it.next).2) := by
            apply ih
            · have hlt := totalRemaining_next_lt it (by rw [h1]; rfl)
              omega
            · exact h2
          rw [htail, remainings_next it hinv hh]

/-- The output of a freshly constructed iterator over valid streams is the
specification merge of those streams. -/
theorem run_new (ss : List (List Term)) (hss : ∀ s ∈ ss, sortedBytes s) :
    runAll (TermIterator.new ss) = mergeSpec ss := by
  have h := runAll_eq_mergeSpec (totalRemaining (TermIterator.new ss)) _
    (le_refl _) (new_inv ss hss)
  rw [new_remainings ss hss] at h
  exact h

theorem inv_next (it : TermIterator) (hinv : Inv it) : Inv (it.next).2 := by
  cases hh : it.heap with
  | nil =>
      rw [next_eq_none hh]
      exact ⟨hinv.1, hinv.2, hinv.3, hinv.4, hinv.5⟩
  | cons x hrest => exact (next_spec it hinv hh).2.1

theorem iterate_inv (k : Nat) : ∀ (it : TermIterator), Inv it →
    Inv (iterate it k) := by
  induction k with
  | zero => intro it hinv; exact hinv
  | succ n ih => intro it hinv; exact ih (it.next).2 (inv_next it hinv)

theorem next_fst_none_iff (it : TermIterator) :
    (it.next).1 = none ↔ it.heap = [] := by
  cases hh : it.heap with
  | nil => rw [next_eq_none hh]; simp
  | cons x hrest =>
      simp only [TermIterator.next, hh, heapPop]
      simp

theorem heap_countP (it : TermIterator) (hinv : Inv it) (i : Nat)
    (hi : i < it.key_streams.length) :
    it.heap.countP (fun x => x.segment_ord == i) =
      if remainingOf it i = [] then 0 else 1 := by
  cases hf : heapItemOf it i with
  | none =>
      rw [heapItemOf, List.find?_eq_none] at hf
      have hz : it.heap.countP (fun x => x.segment_ord == i) = 0 := by
        rw [List.countP_eq_zero]
        exact hf
      rw [hz]
      have hrem : remainingOf it i = [] := by
        rw [remainingOf, heapItemOf, List.find?_eq_none.mpr hf]
        apply hinv.exhausted_nil i hi
        intro z hz hc
        have := hf z hz
        simp [hc] at this
      rw [if_pos hrem]
  | some z =>
      obtain ⟨hzmem, hzord⟩ := heapItemOf_mem hf
      have hrem : remainingOf it i ≠ [] := by
        rw [remainingOf, hf]
        intro hc
        cases hc
      rw [if_neg hrem]
      have hcount : it.heap.countP (fun x => x.segment_ord == i) =
          (it.heap.map HeapItem.segment_ord).count i := by
        rw [List.count, List.countP_map]
        rfl
      rw [hcount]
      have hle : (it.heap.map HeapItem.segment_ord).count i ≤ 1 :=
        List.nodup_iff_count_le_one.mp hinv.ords_nodup i
      have hge : 0 < (it.heap.map HeapItem.segment_ord).count i := by
        rw [List.count_pos_iff]
        rw [← hzord]
        exact List.mem_map_of_mem _ hzmem
      omega

theorem heap_length_le (it : TermIterator) (hinv : Inv it) :
    it.heap.length ≤ it.key_streams.length := by
  have hlen : it.heap.length = (it.heap.map HeapItem.segment_ord).length := by
    simp
  rw [hlen]
  have hsub : (it.heap.map HeapItem.segment_ord) ⊆
      List.range it.key_streams.length := by
    intro o ho
    obtain ⟨z, hz, rfl⟩ := List.mem_map.mp ho
    exact List.mem_range.mpr (hinv.ords_lt z hz)
  calc (it.heap.map HeapItem.segment_ord).length
      ≤ (List.range it.key_streams.length).length :=
        (List.subperm_of_subset hinv.ords_nodup hsub).length_le
    _ = it.key_streams.length := List.length_range _

theorem remaining_nil_next (it : TermIterator) (hinv : Inv it) (i : Nat)
    (hr : remainingOf it i = []) : remainingOf (it.next).2 i = [] := by
  cases hh : it.heap with
  | nil =>
      rw [next_eq_none hh]
      exact hr
  | cons x hrest =>
      obtain ⟨_, _, _, _, _, hrem⟩ := next_spec it hinv hh
      rw [hrem i, hr]
      simp

theorem foldl_push_ords : ∀ (l : List Nat) (it : TermIterator),
    ((l.foldl push_next_segment_el it).current_segment_ords) =
      it.current_segment_ords ++ l := by
  intro l
  induction l with
  | nil => intro it; simp
  | cons o l ih =>
      intro it
      rw [List.foldl_cons, ih]
      rw [(push_fields it o).2.1]
      simp

/-- C1: for every list of input key streams in which each stream yields byte
terms in strictly ascending order with no repeats, every term that appears in
at least one input stream is yielded by the merge iterator exactly once over
the whole sequence of `next` calls, and the segment-ordinal slice yielded with
it contains exactly the ordinals of the streams whose sequence contains that
term. -/
theorem claim_C1 (ss : List (List Term)) (hss : ∀ s ∈ ss, sortedBytes s)
    (t : Term) (ht : ∃ s ∈ ss, t ∈ s) :
    (runAll (TermIterator.new ss)).countP (fun p => p.1 == t) = 1 ∧
    ∀ o, (t, o) ∈ runAll (TermIterator.new ss) →
      o = (List.range ss.length).filter (fun i => decide (t ∈ ss.getD i [])) := by
  rw [run_new ss hss]
  constructor
  · have hle := countP_fst_le_one (mergeSpec_sorted hss) t
    obtain ⟨s, hs, hts⟩ := ht
    obtain ⟨o, ho⟩ := mergeSpec_complete hss s hs t hts
    have hpos : 0 < (mergeSpec ss).countP (fun p => p.1 == t) := by
      rw [List.countP_pos_iff]
      exact ⟨(t, o), ho, by simp⟩
    omega
  · intro o ho
    exact mergeSpec_ords hss t o ho

theorem claim_C1_witness :
    (∀ s ∈ ([[[97],[98]],[[97]]] : List (List Term)), sortedBytes s) ∧
    (∃ s ∈ ([[[97],[98]],[[97]]] : List (List Term)), [97] ∈ s) ∧
    ((runAll (TermIterator.new ([[[97],[98]],[[97]]] : List (List Term)))).countP
        (fun p => p.1 == [97]) = 1 ∧
      ∀ o, (([97] : Term), o) ∈
          runAll (TermIterator.new ([[[97],[98]],[[97]]] : List (List Term))) →
        o = (List.range 2).filter
          (fun i => decide (([97] : Term) ∈
            ([[[97],[98]],[[97]]] : List (List Term)).getD i []))) :=
  ⟨by decide, by decide, claim_C1 _ (by decide) [97] (by decide)⟩

/-- C2: for every list of input key streams, each strictly ascending and
duplicate-free, the sequence of terms returned by successive successful `next`
calls is strictly increasing in unsigned byte-wise lexicographic order. -/
theorem claim_C2 (ss : List (List Term)) (hss : ∀ s ∈ ss, sortedBytes s) :
    ((runAll (TermIterator.new ss)).map Prod.fst).Pairwise
      (fun a b => cmpBytes a b = .lt) := by
  rw [run_new ss hss, List.pairwise_map]
  exact mergeSpec_sorted hss

theorem claim_C2_witness :
    (∀ s ∈ ([[[97],[99]],[[98]]] : List (List Term)), sortedBytes s) ∧
    ((runAll (TermIterator.new ([[[97],[99]],[[98]]] : List (List Term)))).map
        Prod.fst).Pairwise (fun a b => cmpBytes a b = .lt) :=
  ⟨by decide, claim_C2 _ (by decide)⟩

/-- C3: `HeapItem::cmp` is the natural ordering of the (term, segment_ord)
pairs with both components reversed, so the entry that compares greatest (and
is extracted first by the max-heap) is the one with the lexicographically
smaller term, and on byte-identical terms the one with the smaller segment
ordinal; `HeapItem::partial_cmp` is `Some` of `cmp`. -/
theorem claim_C3 :
    (∀ a b : HeapItem, HeapItem.cmp a b = (pairCmp a b).swap) ∧
    (∀ a b : HeapItem, cmpBytes a.term b.term = .lt → HeapItem.cmp a b = .gt) ∧
    (∀ a b : HeapItem, a.term = b.term → a.segment_ord < b.segment_ord →
      HeapItem.cmp a b = .gt) ∧
    (∀ a b : HeapItem, HeapItem.pcmp a b = some (HeapItem.cmp a b)) := by
  refine ⟨HeapItem.cmp_eq_pairCmp_swap, ?_, ?_, fun a b => rfl⟩
  · intro a b hlt
    have h2 : cmpBytes b.term a.term = .gt := cmpBytes_gt_iff_swap.mpr hlt
    show pairCmp b a = .gt
    unfold pairCmp
    rw [h2]
  · intro a b ht hord
    show pairCmp b a = .gt
    unfold pairCmp
    rw [← ht, cmpBytes_refl]
    exact Nat.compare_eq_gt.mpr hord

theorem claim_C3_witness :
    (cmpBytes ([97] : Term) [98] = .lt ∧
      HeapItem.cmp ⟨[97], 5⟩ ⟨[98], 1⟩ = .gt) ∧
    (([97] : Term) = [97] ∧ (0 : Nat) < 1 ∧
      HeapItem.cmp ⟨[97], 0⟩ ⟨[97], 1⟩ = .gt) :=
  ⟨⟨by decide, claim_C3.2.1 ⟨[97], 5⟩ ⟨[98], 1⟩ (by decide)⟩,
    ⟨rfl, by decide, claim_C3.2.2.1 ⟨[97], 0⟩ ⟨[97], 1⟩ rfl (by decide)⟩⟩

/-- C4: for every valid input, every segment-ordinal slice yielded by a
successful `next` call is strictly ascending and contains no duplicates. -/
theorem claim_C4 (ss : List (List Term)) (hss : ∀ s ∈ ss, sortedBytes s) :
    ∀ p ∈ runAll (TermIterator.new ss), p.2.Pairwise (· < ·) ∧ p.2.Nodup := by
  rw [run_new ss hss]
  rintro ⟨t, o⟩ hp
  show o.Pairwise (· < ·) ∧ o.Nodup
  rw [mergeSpec_ords hss t o hp]
  have hsorted : ((List.range ss.length).filter
      (fun i => decide (t ∈ ss.getD i []))).Pairwise (· < ·) :=
    (List.pairwise_lt_range _).sublist (List.filter_sublist _)
  exact ⟨hsorted, hsorted.imp Nat.ne_of_lt⟩

theorem claim_C4_witness :
    (∀ s ∈ ([[[97]],[[97]],[[97]]] : List (List Term)), sortedBytes s) ∧
    (∀ p ∈ runAll (TermIterator.new ([[[97]],[[97]],[[97]]] : List (List Term))),
      p.2.Pairwise (· < ·) ∧ p.2.Nodup) :=
  ⟨by decide, claim_C4 _ (by decide)⟩

/-- C5: at every point between construction and successive `next` calls, for
each input stream that is not yet exhausted (its conceptual remaining sequence
is nonempty) the heap holds exactly one pending entry for that stream's
ordinal, none for an exhausted one, and the heap's size never exceeds the
number of input streams. -/
theorem claim_C5 (ss : List (List Term)) (hss : ∀ s ∈ ss, sortedBytes s)
    (k : Nat) :
    (∀ i < (iterate (TermIterator.new ss) k).key_streams.length,
      (iterate (TermIterator.new ss) k).heap.countP
          (fun x => x.segment_ord == i) =
        if remainingOf (iterate (TermIterator.new ss) k) i = [] then 0 else 1) ∧
    (iterate (TermIterator.new ss) k).heap.length ≤
      (iterate (TermIterator.new ss) k).key_streams.length := by
  have hinv := iterate_inv k (TermIterator.new ss) (new_inv ss hss)
  exact ⟨fun i hi => heap_countP _ hinv i hi, heap_length_le _ hinv⟩

theorem claim_C5_witness :
    (∀ s ∈ ([[[97],[98]],[],[[97]]] : List (List Term)), sortedBytes s) ∧
    ((∀ i < (iterate (TermIterator.new
        ([[[97],[98]],[],[[97]]] : List (List Term))) 1).key_streams.length,
      (iterate (TermIterator.new
          ([[[97],[98]],[],[[97]]] : List (List Term))) 1).heap.countP
          (fun x => x.segment_ord == i) =
        if remainingOf (iterate (TermIterator.new
            ([[[97],[98]],[],[[97]]] : List (List Term))) 1) i = []
          then 0 else 1) ∧
    (iterate (TermIterator.new
        ([[[97],[98]],[],[[97]]] : List (List Term))) 1).heap.length ≤
      (iterate (TermIterator.new
        ([[[97],[98]],[],[[97]]] : List (List Term))) 1).key_streams.length) :=
  ⟨by decide, claim_C5 _ (by decide) 1⟩

/-- C6: the pop inside the drain loop of `next` never hits its failure
branch: whenever a peek on the heap returned an entry, the subsequent pop
returns `Some` (of that same entry and the remaining heap), so the source's
`expect` never panics. -/
theorem claim_C6 (it : TermIterator) (x : HeapItem)
    (h : heapPeek it.heap = some x) :
    heapPop it.heap = some (x, it.heap.tail) :=
  heapPop_of_peek h

theorem claim_C6_witness :
    heapPeek (TermIterator.mk [] [⟨[97], 0⟩] [] []).heap = some ⟨[97], 0⟩ ∧
    heapPop (TermIterator.mk [] [⟨[97], 0⟩] [] []).heap =
      some (⟨[97], 0⟩, (TermIterator.mk [] [⟨[97], 0⟩] [] []).heap.tail) :=
  ⟨by decide, claim_C6 (TermIterator.mk [] [⟨[97], 0⟩] [] []) ⟨[97], 0⟩ (by decide)⟩

/-- C7: once a `next` call returns nothing, every subsequent `next` call also
returns nothing; exhaustion is permanent. -/
theorem claim_C7 (it : TermIterator) (h : (it.next).1 = none) :
    ∀ k, ((iterate (it.next).2 k).next).1 = none := by
  have hnil : it.heap = [] := (next_fst_none_iff it).mp h
  have hiter : ∀ k (w : TermIterator), w.heap = [] → (iterate w k).heap = [] := by
    intro k
    induction k with
    | zero => intro w hw; exact hw
    | succ n ih =>
        intro w hw
        show (iterate (w.next).2 n).heap = []
        apply ih
        rw [next_eq_none hw]
        exact hw
  intro k
  rw [next_fst_none_iff]
  apply hiter
  rw [next_eq_none hnil]
  exact hnil

theorem claim_C7_witness :
    ((TermIterator.mk [[]] [] [97] []).next.1 = none) ∧
    (∀ k, ((iterate ((TermIterator.mk [[]] [] [97] []).next).2 k).next).1
      = none) :=
  ⟨by decide, claim_C7 (TermIterator.mk [[]] [] [97] []) (by decide)⟩

/-- C8: an iterator over zero streams, or over streams that are all exhausted
on their first pull, returns nothing on the very first `next` call (its heap
is empty after seeding); and a stream that is empty from the start never
contributes a heap entry at any point and never appears in any yielded
segment-ordinal list. -/
theorem claim_C8 :
    ((TermIterator.new ([] : List (List Term))).next.1 = none) ∧
    (∀ ss : List (List Term), (∀ s ∈ ss, s = []) →
      (TermIterator.new ss).heap = [] ∧ (TermIterator.new ss).next.1 = none) ∧
    (∀ ss : List (List Term), (∀ s ∈ ss, sortedBytes s) →
      ∀ i, ss.getD i [] = [] →
      (∀ k, i ∉ (iterate (TermIterator.new ss) k).heap.map
        HeapItem.segment_ord) ∧
      (∀ p ∈ runAll (TermIterator.new ss), i ∉ p.2)) := by
  refine ⟨by decide, ?_, ?_⟩
  · intro ss hss
    have hsorted : ∀ s ∈ ss, sortedBytes s := by
      intro s hs
      rw [hss s hs]
      exact List.Pairwise.nil
    have hseed := new_seedState ss hsorted
    have hheap : (TermIterator.new ss).heap = [] := by
      rw [List.eq_nil_iff_forall_not_mem]
      intro z hz
      have h1 := hseed.remainAll z.segment_ord
      have h2 := heapItemOf_of_mem (new_inv ss hsorted) hz
      rw [remainingOf, h2] at h1
      have h3 : ss.getD z.segment_ord [] = [] := by
        rcases Nat.lt_or_ge z.segment_ord ss.length with hlt | hge
        · exact hss _ (by
            rw [List.getD_eq_getElem _ _ hlt]
            exact List.getElem_mem _)
        · exact List.getD_eq_default _ _ hge
      rw [h3] at h1
      cases h1
    exact ⟨hheap, (next_fst_none_iff _).mpr hheap⟩
  · intro ss hsorted i hi
    have hrem : ∀ k (it : TermIterator), Inv it → remainingOf it i = [] →
        remainingOf (iterate it k) i = [] ∧ Inv (iterate it k) := by
      intro k
      induction k with
      | zero => intro it hinv h0; exact ⟨h0, hinv⟩
      | succ n ih =>
          intro it hinv h0
          exact ih (it.next).2 (inv_next it hinv)
            (remaining_nil_next it hinv i h0)
    constructor
    · intro k hc
      obtain ⟨z, hz, hzo⟩ := List.mem_map.mp hc
      obtain ⟨hr, hinvk⟩ := hrem k (TermIterator.new ss) (new_inv ss hsorted)
        (by rw [(new_seedState ss hsorted).remainAll i, hi])
      have hfind := heapItemOf_of_mem hinvk hz
      rw [hzo] at hfind
      rw [remainingOf, hfind] at hr
      cases hr
    · rintro ⟨t, o⟩ hp hc
      rw [run_new ss hsorted] at hp
      have ho := mergeSpec_ords hsorted t o hp
      rw [show ((t, o) : Term × List Nat).2 = o from rfl, ho] at hc
      have := (List.mem_filter.mp hc).2
      rw [hi] at this
      simp at this

theorem claim_C8_witness :
    (∀ s ∈ ([[], []] : List (List Term)), s = []) ∧
    ((TermIterator.new ([[], []] : List (List Term))).heap = [] ∧
      (TermIterator.new ([[], []] : List (List Term))).next.1 = none) ∧
    (∀ s ∈ ([[], [[97]]] : List (List Term)), sortedBytes s) ∧
    (([[], [[97]]] : List (List Term)).getD 0 [] = []) ∧
    ((∀ k, 0 ∉ (iterate (TermIterator.new
        ([[], [[97]]] : List (List Term))) k).heap.map HeapItem.segment_ord) ∧
      (∀ p ∈ runAll (TermIterator.new ([[], [[97]]] : List (List Term))),
        0 ∉ p.2)) :=
  ⟨by decide, claim_C8.2.1 _ (by decide), by decide, by decide,
    claim_C8.2.2 _ (by decide) 0 (by decide)⟩

/-- C9: for the reference input S0 = [a, b, d, f], S1 = [a, b, c, d, f],
S2 = [e, f] (bytes 97..102), the iterator yields exactly
(a,[0,1]), (b,[0,1]), (c,[1]), (d,[0,1]), (e,[2]), (f,[0,1,2]) in that order,
and the next call after that yields nothing. -/
theorem claim_C9 :
    runIter (TermIterator.new
      ([[[97],[98],[100],[102]],
        [[97],[98],[99],[100],[102]],
        [[101],[102]]] : List (List Term))) 7 =
      [some ([97], [0, 1]), some ([98], [0, 1]), some ([99], [1]),
       some ([100], [0, 1]), some ([101], [2]), some ([102], [0, 1, 2]),
       none] := by
  decide

/-- C10: directly after construction the segment-ordinal buffer holds the
leftover seeding contents [0, 1, ..., N-1]; and a `next` call that returns
nothing changes nothing but clearing that buffer — the current term, the
streams and the (empty) heap are all kept. -/
theorem claim_C10 :
    (∀ ss : List (List Term),
      (TermIterator.new ss).current_segment_ords = List.range ss.length) ∧
    (∀ it : TermIterator, it.heap = [] →
      it.next = (none, { it with current_segment_ords := [] })) := by
  constructor
  · intro ss
    rw [TermIterator.new, foldl_push_ords]
    simp
  · exact fun it h => next_eq_none h

theorem claim_C10_witness :
    ((TermIterator.new ([[[97]],[[98],[99]]] : List (List Term))).current_segment_ords
      = List.range 2) ∧
    ((TermIterator.mk [[]] [] [97] [3]).heap = [] ∧
      (TermIterator.mk [[]] [] [97] [3]).next =
        (none, TermIterator.mk [[]] [] [97] [])) :=
  ⟨claim_C10.1 _, ⟨rfl, claim_C10.2 (TermIterator.mk [[]] [] [97] [3]) rfl⟩⟩

end TermIter
